import Mathlib

/-!
Verification development for the feature/placement tree core
(`src/MultibodyModeling/FeatureRep.cpp`).

The embedding represents the world as a list of feature trees.  A live
Feature object is addressed by a `FeatureRef`: the index of its root tree
in the world plus the child-index path from that root down to the node.
Two refs are equal exactly when they denote the same C++ object, so
pointer comparison in the source becomes `FeatureRef` equality here.

The source keeps redundant parent/index and owner/index back-pointers that
are re-established after every structural copy (`reparentMyChildren`); in
this embedding those back-references are positional: the parent of
`⟨t, p ++ [i]⟩` is `⟨t, p⟩` and `i` is its index in the parent, and a
placement's owner/index is the position at which it is stored.  This bakes
in the parent/child-consistency invariant the source re-asserts after each
mutation.

Parts of the program that live outside `FeatureRep.cpp` (the
`PlacementRep` capability surface and conversion hooks) are modelled from
the spec; each such definition carries a `Modelled from the spec:` note.
-/

set_option maxHeartbeats 1000000
set_option linter.unusedVariables false

namespace Simbody

/-- Placement result categories (the `PlacementType` enumeration of the source). -/
inductive PlacementType where
  | RealT
  | Vec3T
  | StationT
  | DirectionT
  | OrientationT
  | FrameT
  deriving DecidableEq

/-- Display names of the placement categories, exactly the strings the source
passes to its error contexts (`"Real"`, `"Vec3"`, ...). -/
def placementTypeName : PlacementType → String
  | .RealT => "Real"
  | .Vec3T => "Vec3"
  | .StationT => "Station"
  | .DirectionT => "Direction"
  | .OrientationT => "Orientation"
  | .FrameT => "Frame"

/-- A reference to a live Feature: index of its root tree in the world, and
the child-index path from that root down to the node.  Plays the role of a
`Feature*` / `const Feature&` of the source. -/
structure FeatureRef where
  tree : Nat
  path : List Nat
  deriving DecidableEq

/-- A reference to a stored placement expression or value: the owning
Feature plus the index in the owner's sequence. -/
abbrev PlacementRef := FeatureRef × Nat

/-- A placement expression.  Modelled from the spec: a `PlacementRep`
carries its produced category, the set of Features it directly references
(a reference may have been nulled by the clone repair pass, hence
`Option`), and at most one reference to a placement value slot. -/
structure PlacementExpr where
  ptype : PlacementType
  refs : List (Option FeatureRef)
  valueRef : Option PlacementRef
  deriving DecidableEq

/-- A Feature node: name, feature-kind name, required placement category,
owned child Features, owned placement expressions, owned placement value
slots (their evaluated contents are out of scope, so only the count is
kept), and the optional active-placement reference. -/
inductive FeatureNode where
  | node (name ftypeName : String) (requiredType : PlacementType)
      (subfeatures : List FeatureNode)
      (placementExpressions : List PlacementExpr)
      (numPlacementValues : Nat)
      (activePlacement : Option PlacementRef) : FeatureNode

def FeatureNode.name : FeatureNode → String
  | .node nm _ _ _ _ _ _ => nm

def FeatureNode.ftypeName : FeatureNode → String
  | .node _ ft _ _ _ _ _ => ft

def FeatureNode.requiredType : FeatureNode → PlacementType
  | .node _ _ rt _ _ _ _ => rt

def FeatureNode.subfeatures : FeatureNode → List FeatureNode
  | .node _ _ _ ss _ _ _ => ss

def FeatureNode.placementExpressions : FeatureNode → List PlacementExpr
  | .node _ _ _ _ pe _ _ => pe

def FeatureNode.numPlacementValues : FeatureNode → Nat
  | .node _ _ _ _ _ nv _ => nv

def FeatureNode.activePlacement : FeatureNode → Option PlacementRef
  | .node _ _ _ _ _ _ ap => ap

/-- Replace the child list, keeping every other field. -/
def FeatureNode.withSubfeatures : FeatureNode → List FeatureNode → FeatureNode
  | .node nm ft rt _ pe nv ap, ss => .node nm ft rt ss pe nv ap

/-- Append a placement expression to the owned sequence
(the positional form of `cloneUnownedWithNewHandle` + `setOwner`). -/
def FeatureNode.appendExpr (p : PlacementExpr) : FeatureNode → FeatureNode
  | .node nm ft rt ss pe nv ap => .node nm ft rt ss (pe ++ [p]) nv ap

/-- Set the active-placement reference. -/
def FeatureNode.setActive (a : Option PlacementRef) : FeatureNode → FeatureNode
  | .node nm ft rt ss pe nv _ => .node nm ft rt ss pe nv a

/-- The world: all root feature trees, addressed by index. -/
abbrev World := List FeatureNode

/-- Walk a child-index path down from a node. -/
def resolveIn : FeatureNode → List Nat → Option FeatureNode
  | n, [] => some n
  | n, i :: rest => (n.subfeatures[i]?).bind (fun c => resolveIn c rest)

/-- Dereference a `FeatureRef` in the world. -/
def resolve (w : World) (f : FeatureRef) : Option FeatureNode :=
  (w[f.tree]?).bind (fun n => resolveIn n f.path)

/-- `getParentPtr`: a node's parent, `none` exactly when the node is a tree
root (empty path). -/
def parentRef (f : FeatureRef) : Option FeatureRef :=
  if f.path = [] then none else some ⟨f.tree, f.path.dropLast⟩

/-- `getIndexInParent`: the node's index within its parent's child sequence. -/
def indexInParent (f : FeatureRef) : Nat :=
  f.path.getLastD 0

/-- `FeatureRep::findRootFeature`: follow parent links to the end. -/
def findRootFeature (f : FeatureRef) : FeatureRef :=
  if h : f.path = [] then f else findRootFeature ⟨f.tree, f.path.dropLast⟩
termination_by f.path.length
decreasing_by
  simp only [List.length_dropLast]
  have : f.path.length ≠ 0 := fun hl => h (List.eq_nil_of_length_eq_zero hl)
  omega

/-- The node-to-root chain `[f, parent f, …, root]`, as built by the two
collection loops of `findYoungestCommonAncestor`. -/
def ancestorChain (f : FeatureRef) : List FeatureRef :=
  if h : f.path = [] then [f]
  else f :: ancestorChain ⟨f.tree, f.path.dropLast⟩
termination_by f.path.length
decreasing_by
  simp only [List.length_dropLast]
  have : f.path.length ≠ 0 := fun hl => h (List.eq_nil_of_length_eq_zero hl)
  omega

/-- The name of the node a ref denotes (empty for a dangling ref). -/
def nameAt (w : World) (f : FeatureRef) : String :=
  ((resolve w f).map FeatureNode.name).getD ""

/-- `FeatureRep::getFullName`: root-to-node names joined by `/`. -/
def getFullName (w : World) (f : FeatureRef) : String :=
  if h : f.path = [] then nameAt w f
  else getFullName w ⟨f.tree, f.path.dropLast⟩ ++ "/" ++ nameAt w f
termination_by f.path.length
decreasing_by
  simp only [List.length_dropLast]
  have : f.path.length ≠ 0 := fun hl => h (List.eq_nil_of_length_eq_zero hl)
  omega

/-- The walking loop of `FeatureRep::isFeatureInFeatureTree`: compare the
current node against `oldRoot`, pushing `getIndexInParent` onto the trace
before each step up; clear the trace and fail when a parentless node other
than `oldRoot` is reached. -/
def isInTreeAux (oldRoot fp : FeatureRef) (trace : List Nat) : Bool × List Nat :=
  if fp = oldRoot then (true, trace)
  else if h : fp.path = [] then (false, [])
  else isInTreeAux oldRoot ⟨fp.tree, fp.path.dropLast⟩ (trace ++ [indexInParent fp])
termination_by fp.path.length
decreasing_by
  simp only [List.length_dropLast]
  have : fp.path.length ≠ 0 := fun hl => h (List.eq_nil_of_length_eq_zero hl)
  omega

/-- `FeatureRep::isFeatureInFeatureTree`: is `f` in the tree rooted at
`oldRoot`, and if so, the series of child indices collected while walking
up from `f` (returned exactly as collected). -/
def isFeatureInFeatureTree (oldRoot f : FeatureRef) : Bool × List Nat :=
  isInTreeAux oldRoot f []

/-- The replay loop of `FeatureRep::findCorrespondingFeature`: descend one
child index at a time, failing if the child does not exist. -/
def descendByIndices (w : World) : FeatureRef → List Nat → Option FeatureRef
  | r, [] => some r
  | r, i :: rest =>
    match resolve w ⟨r.tree, r.path ++ [i]⟩ with
    | some _ => descendByIndices w ⟨r.tree, r.path ++ [i]⟩ rest
    | none => none

/-- `FeatureRep::findCorrespondingFeature`: compute `f`'s trace under
`oldRoot`, then replay the trace from its far end descending from
`newRoot`. -/
def findCorrespondingFeature (w : World) (oldRoot f newRoot : FeatureRef) :
    Option FeatureRef :=
  match isFeatureInFeatureTree oldRoot f with
  | (false, _) => none
  | (true, trace) => descendByIndices w newRoot trace.reverse

/-- The scan-down loop of `findYoungestCommonAncestor`: walk both
root-first paths in step while corresponding entries are identical; the
last match is the answer. -/
def ycaScan : List FeatureRef → List FeatureRef → Option FeatureRef → Option FeatureRef
  | a :: as, b :: bs, anc => if a = b then ycaScan as bs (some a) else anc
  | _, _, anc => anc

/-- `FeatureRep::findYoungestCommonAncestor`: build both node-to-root
paths, then search down from the root end; `none` when the features share
no node. -/
def findYoungestCommonAncestor (f1 f2 : FeatureRef) : Option FeatureRef :=
  ycaScan (ancestorChain f1).reverse (ancestorChain f2).reverse none

/-- `FeatureRep::isLegalFeatureName`: non-empty, all characters
alphanumeric or underscore. -/
def isLegalFeatureName (n : String) : Bool :=
  n.data ≠ [] && n.data.all (fun c => c.isAlphanum || c = '_')

/-- The segment loop of `FeatureRep::isLegalFeaturePathname`: collect the
characters of one segment up to the next `/`, record it, fail if it is
illegal, skip the `/`, repeat; on normal exit report whether at least one
segment was found.  The `segs` accumulator starts empty, so at exit it is
non-empty exactly when `foundAtLeastOne` was set. -/
def pathLoop : List Char → List String → Bool × List String
  | [], segs => (!segs.isEmpty, segs)
  | c :: cs, segs =>
    let t := String.mk ((c :: cs).takeWhile (fun x => x ≠ '/'))
    if isLegalFeatureName t then
      pathLoop (((c :: cs).dropWhile (fun x => x ≠ '/')).drop 1) (segs ++ [t])
    else
      (false, segs ++ [t])
termination_by cs _ => cs.length
decreasing_by
  have h1 : ((c :: cs).dropWhile (fun x => x ≠ '/')).length ≤ (c :: cs).length :=
    (List.dropWhile_sublist _).length_le
  simp only [List.length_drop, List.length_cons] at *
  omega

/-- `FeatureRep::isLegalFeaturePathname`: validity of a `/`-separated
pathname plus the captured segments (the last captured segment is the
offender on failure). -/
def isLegalFeaturePathname (pathname : String) : Bool × List String :=
  pathLoop pathname.data []

/-- Rewrite the node addressed by a path, leaving every other node's own
data untouched (the positional form of mutating one object in place). -/
def updateIn (g : FeatureNode → FeatureNode) : FeatureNode → List Nat → FeatureNode
  | n, [] => g n
  | n, i :: rest =>
    match n.subfeatures[i]? with
    | none => n
    | some c => n.withSubfeatures (n.subfeatures.set i (updateIn g c rest))

/-- Rewrite the node a ref denotes, in the world. -/
def updateAt (g : FeatureNode → FeatureNode) (w : World) (f : FeatureRef) : World :=
  match w[f.tree]? with
  | none => w
  | some n => w.set f.tree (updateIn g n f.path)

/-- The structured error taxonomy of the source's `SIMTK_THROW` calls,
with the exact context arguments each throw site passes. -/
inductive PlaceError where
  | placementCantBeUsedForThisFeature (placementType fullName featureType : String)
  | featureAndPlacementOnDifferentTrees (fullName offenderFullName : String)
  | placementMustBeLocal (method fullName offenderFullName : String)
  | assertionFailure (what : String)
  deriving DecidableEq

/-- Modelled from the spec: the Features a placement directly references
(`PlacementRep::getFeatureReferences`); nulled slots reference nothing. -/
def featureRefs (p : PlacementExpr) : List FeatureRef :=
  p.refs.filterMap id

/-- Modelled from the spec: `PlacementRep::isLimitedToSubtree` — every
directly referenced Feature must lie in the subtree rooted at `root`;
the first violation is the named offender. -/
def firstOffendingRef (root : FeatureRef) (p : PlacementExpr) : Option FeatureRef :=
  (featureRefs p).find? (fun r => !(isFeatureInFeatureTree root r).1)

/-- Modelled from the spec: `PlacementRep::isConstant` — a placement that
references no Features is a constant value. -/
def isConstantP (p : PlacementExpr) : Bool :=
  (featureRefs p).isEmpty

/-- Modelled from the spec: `PlacementRep::findAncestorFeature` — the
youngest common ancestor of the given bound and every Feature the
placement directly references, folded pairwise starting from the bound. -/
def findAncestorFeature (p : PlacementExpr) (youngestAllowed : FeatureRef) :
    Option FeatureRef :=
  (featureRefs p).foldl
    (fun acc r => acc.bind (fun a => findYoungestCommonAncestor a r))
    (some youngestAllowed)

/-- The active-placement reference of the Feature a ref denotes. -/
def activeOf (w : World) (f : FeatureRef) : Option PlacementRef :=
  (resolve w f).bind FeatureNode.activePlacement

/-- The stored placement expression a `PlacementRef` denotes. -/
def exprAt (w : World) (a : PlacementRef) : Option PlacementExpr :=
  (resolve w a.1).bind (fun n => n.placementExpressions[a.2]?)

/-- Total number of placement expressions stored in a subtree. -/
def countPlacements : FeatureNode → Nat
  | .node _ _ _ subs exprs _ _ =>
    exprs.length + (subs.attach.map (fun s => countPlacements s.1)).sum
decreasing_by
  have := List.sizeOf_lt_of_mem s.2
  cases s
  simp_all
  omega

/-- Total number of placement expressions stored in the world. -/
def worldPlacementCount (w : World) : Nat :=
  (w.map countPlacements).sum

/-- Modelled from the spec: `Placement::dependsOn` — a placement depends
on Feature `F` when some directly referenced Feature is `F` itself or has
an active placement that (recursively) depends on `F`.  The recursion is
bounded by fuel; exhausted fuel (possible only on a cyclic dependency
graph, where the source would not terminate) conservatively reports a
dependency. -/
def dependsOnFuel (w : World) : Nat → PlacementExpr → FeatureRef → Bool
  | 0, _, _ => true
  | fuel + 1, p, F =>
    (featureRefs p).any (fun r =>
      decide (r = F) ||
        (((activeOf w r).bind (fun a => exprAt w a)).map
          (fun q => dependsOnFuel w fuel q F)).getD false)

/-- `dependsOn` with enough fuel for any acyclic dependency graph. -/
def dependsOnB (w : World) (p : PlacementExpr) (F : FeatureRef) : Bool :=
  dependsOnFuel w (worldPlacementCount w + 1) p F

/-- `FeatureRep::addPlacementLike`: reject any placement referencing a
Feature outside the owner's own subtree (`PlacementMustBeLocal`, naming
the would-be owner and the offender); otherwise append a copy of the
expression at the next index of the owner's sequence. -/
def addPlacementLike (w : World) (owner : FeatureRef) (p : PlacementExpr) :
    Except PlaceError (World × Nat) :=
  match resolve w owner with
  | none => .error (.assertionFailure "addPlacementLike: dangling owner handle")
  | some onode =>
    match firstOffendingRef owner p with
    | some off =>
      .error (.placementMustBeLocal "FeatureRep::addPlacementLike"
        (getFullName w owner) (getFullName w off))
    | none =>
      .ok (updateAt (FeatureNode.appendExpr p) w owner,
           onode.placementExpressions.length)

/-- Record `a` as the Feature's active placement (`placement = &good`). -/
def setActivePlacement (w : World) (f : FeatureRef) (a : Option PlacementRef) : World :=
  updateAt (FeatureNode.setActive a) w f

/-- `FeatureRep::place`: the Placement Ownership Resolver.  `conv` is the
external conversion collaborator (`convertToRequiredPlacementType`,
modelled from the spec as an optional result; the source's default hooks
always fail).  Returns the updated world together with the owner and index
at which the placement was stored.  The C++ `assert`s of the success path
are modelled as `assertionFailure` outcomes.  The type-specific
`postProcessNewPlacement` hook is external and not modelled. -/
def place (conv : World → FeatureRef → PlacementExpr → Option PlacementExpr)
    (w : World) (F : FeatureRef) (p : PlacementExpr) :
    Except PlaceError (World × FeatureRef × Nat) :=
  match resolve w F with
  | none => .error (.assertionFailure "place: dangling feature handle")
  | some fnode =>
    match (if p.ptype = fnode.requiredType then some p else conv w F p) with
    | none =>
      .error (.placementCantBeUsedForThisFeature
        (placementTypeName p.ptype) (getFullName w F) fnode.ftypeName)
    | some pTweaked =>
      if pTweaked.ptype ≠ fnode.requiredType then
        .error (.assertionFailure "place: conversion produced the wrong type")
      else
        match firstOffendingRef (findRootFeature F) pTweaked with
        | some off =>
          .error (.featureAndPlacementOnDifferentTrees
            (getFullName w F) (getFullName w off))
        | none =>
          let youngestAllowed : FeatureRef :=
            match parentRef F with
            | some par => par
            | none => F
          match findAncestorFeature pTweaked youngestAllowed with
          | none => .error (.assertionFailure "place: no common ancestor")
          | some commonAncestor =>
            match addPlacementLike w commonAncestor pTweaked with
            | .error e => .error e
            | .ok (w1, index) =>
              if (isConstantP pTweaked || decide (commonAncestor ≠ F))
                  && (isFeatureInFeatureTree commonAncestor F).1
                  && !(dependsOnB w1 pTweaked F) then
                .ok (setActivePlacement w1 F (some (commonAncestor, index)),
                     commonAncestor, index)
              else
                .error (.assertionFailure "place: post-registration invariant violated")

/-- `FeatureRep::findCorrespondingPlacement`: map the placement's owner
across the old-root/new-root pair and pick the same index there. -/
def findCorrespondingPlacement (w : World) (oldRoot : FeatureRef)
    (p : PlacementRef) (newRoot : FeatureRef) : Option PlacementRef :=
  match findCorrespondingFeature w oldRoot p.1 newRoot with
  | none => none
  | some corrOwner =>
    match resolve w corrOwner with
    | none => none
    | some cn =>
      if p.2 < cn.placementExpressions.length then some (corrOwner, p.2) else none

/-- `FeatureRep::findCorrespondingPlacementValue`: same discipline for a
placement value slot. -/
def findCorrespondingPlacementValue (w : World) (oldRoot : FeatureRef)
    (v : PlacementRef) (newRoot : FeatureRef) : Option PlacementRef :=
  match findCorrespondingFeature w oldRoot v.1 newRoot with
  | none => none
  | some corrOwner =>
    match resolve w corrOwner with
    | none => none
    | some cn =>
      if v.2 < cn.numPlacementValues then some (corrOwner, v.2) else none

/-- The per-expression part of `FeatureRep::fixPlacements`: remap every
Feature reference (`repairFeatureReferences`, modelled from the spec as
`findCorrespondingFeature` on each direct reference) and the value
reference (`repairValueReference`); a reference from outside the old
subtree becomes `none`. -/
def fixExpr (w : World) (oldRoot newRoot : FeatureRef) (p : PlacementExpr) :
    PlacementExpr :=
  ⟨p.ptype,
   p.refs.map (fun r => r.bind (fun rr => findCorrespondingFeature w oldRoot rr newRoot)),
   p.valueRef.bind (fun v => findCorrespondingPlacementValue w oldRoot v newRoot)⟩

/-- `FeatureRep::fixPlacements`: recurse over the copied subtree, repair
every owned placement expression, and remap the node's active-placement
reference via `findCorrespondingPlacement`. -/
def fixPlacements (w : World) (oldRoot newRoot : FeatureRef) : FeatureNode → FeatureNode
  | .node nm ft rt subs exprs nv act =>
    .node nm ft rt
      (subs.attach.map (fun s => fixPlacements w oldRoot newRoot s.1))
      (exprs.map (fixExpr w oldRoot newRoot))
      nv
      (act.bind (fun a => findCorrespondingPlacement w oldRoot a newRoot))
decreasing_by
  have := List.sizeOf_lt_of_mem s.2
  cases s
  simp_all
  omega

/-- `FeatureRep::cloneWithoutParentOrExternalPlacements`: structurally
copy the subtree at `src` to a fresh free-standing root (parent/index
none), re-parent the copy (positional, hence implicit here), then repair
all placement references against the old subtree.  The repair pass looks
the old references up in a world that already holds the structural copy. -/
def cloneWithoutParentOrExternalPlacements (w : World) (src : FeatureRef) :
    Option (World × FeatureRef) :=
  match resolve w src with
  | none => none
  | some n =>
    let newRef : FeatureRef := ⟨w.length, []⟩
    some (w ++ [fixPlacements (w ++ [n]) src newRef n], newRef)

/-- Specification vocabulary: `r` denotes a node of the subtree rooted at
`R` — same tree, and `R`'s path leads down to `r`'s. -/
def UnderSubtree (R r : FeatureRef) : Prop :=
  r.tree = R.tree ∧ R.path <+: r.path

/-- Specification vocabulary: the node of the copy rooted at `newRoot`
sitting at the same relative position as `r` sits under `R`. -/
def corrNode (R newRoot r : FeatureRef) : FeatureRef :=
  ⟨newRoot.tree, newRoot.path ++ r.path.drop R.path.length⟩

/-! ### Name/Path Validator lemmas -/

theorem pathLoop_true_spec (cs : List Char) (segs : List String) :
    (∀ s ∈ segs, isLegalFeatureName s) → (pathLoop cs segs).1 = true →
    (pathLoop cs segs).2 ≠ [] ∧ ∀ s ∈ (pathLoop cs segs).2, isLegalFeatureName s := by
  induction cs, segs using pathLoop.induct with
  | case1 segs =>
    intro hacc h
    simp only [pathLoop] at h ⊢
    refine ⟨?_, hacc⟩
    intro hnil
    simp [hnil] at h
  | case2 c cs segs t hleg ih =>
    intro hacc h
    simp only [pathLoop, hleg, if_true] at h ⊢
    exact ih (by
      intro s hs
      rcases List.mem_append.1 hs with h1 | h1
      · exact hacc s h1
      · simpa [List.mem_singleton.1 h1] using hleg) h
  | case3 c cs segs t hleg =>
    intro hacc h
    simp only [pathLoop] at h
    rw [if_neg hleg] at h
    simp at h

theorem pathLoop_false_spec (cs : List Char) (segs : List String) :
    (pathLoop cs segs).1 = false →
    ((pathLoop cs segs).2 = segs ∧ segs = []) ∨
      ∃ t, (pathLoop cs segs).2.getLast? = some t ∧ isLegalFeatureName t = false := by
  induction cs, segs using pathLoop.induct with
  | case1 segs =>
    intro h
    simp only [pathLoop] at h ⊢
    exact Or.inl ⟨by trivial, by simpa using h⟩
  | case2 c cs segs t hleg ih =>
    intro h
    simp only [pathLoop, hleg, if_true] at h ⊢
    rcases ih h with ⟨h1, h2⟩ | hr
    · exact absurd h2 (by simp)
    · exact Or.inr hr
  | case3 c cs segs t hleg =>
    intro h
    simp only [pathLoop]
    rw [if_neg hleg]
    right
    exact ⟨t, List.getLast?_concat _, by simpa using hleg⟩

end Simbody

namespace Simbody

theorem takeWhile_append_slash (l : List Char) :
    (l ++ ['/']).takeWhile (fun x => x ≠ '/') = l.takeWhile (fun x => x ≠ '/') := by
  rw [List.takeWhile_append]
  split
  case isTrue hlen =>
    have hself : l.takeWhile (fun x => x ≠ '/') = l :=
      (List.takeWhile_prefix _).eq_of_length hlen
    have h0 : List.takeWhile (fun x => x ≠ '/') (['/'] : List Char) = [] := rfl
    rw [h0, List.append_nil]
    exact hself.symm
  case isFalse => rfl

theorem dropWhile_append_slash (l : List Char) :
    (l ++ ['/']).dropWhile (fun x => x ≠ '/') = l.dropWhile (fun x => x ≠ '/') ++ ['/'] := by
  rw [List.dropWhile_append]
  split
  case isTrue hemp =>
    rw [List.isEmpty_iff] at hemp
    rw [hemp]
    simp [List.dropWhile_cons]
  case isFalse => rfl

theorem dropWhile_head_not {α : Type} (p : α → Bool) (l : List α) (y : α) (ys : List α)
    (h : l.dropWhile p = y :: ys) : ¬ p y = true := by
  have hlen : 0 < (l.dropWhile p).length := by rw [h]; simp
  have := List.dropWhile_get_zero_not p l hlen
  have hy : (l.dropWhile p).get ⟨0, hlen⟩ = y := by
    simp [h]
  rwa [hy] at this

theorem pathLoop_append_slash (cs : List Char) (segs : List String) :
    cs ≠ [] → cs.getLast? ≠ some '/' →
    pathLoop (cs ++ ['/']) segs = pathLoop cs segs := by
  induction cs, segs using pathLoop.induct with
  | case1 segs =>
    intro hne _
    exact absurd rfl hne
  | case2 c cs segs t hleg ih =>
    intro hne hlast
    rw [List.cons_append]
    simp only [pathLoop]
    rw [show (c :: (cs ++ ['/'])) = (c :: cs) ++ ['/'] from rfl]
    rw [takeWhile_append_slash, dropWhile_append_slash]
    rw [if_pos hleg, if_pos hleg]
    cases hd : (c :: cs).dropWhile (fun x => x ≠ '/') with
    | nil => simp
    | cons y d =>
      have hy : y = '/' := by
        have := dropWhile_head_not _ _ _ _ hd
        simpa using this
      subst hy
      simp only [List.cons_append, List.drop_succ_cons, List.drop_zero]
      have hd' : d ≠ [] := by
        intro hdnil
        apply hlast
        have hsplit := List.takeWhile_append_dropWhile (fun x => x ≠ '/') (c :: cs)
        rw [hd, hdnil] at hsplit
        rw [show ('/' : Char) :: ([] : List Char) = ['/'] from rfl] at hsplit
        rw [← hsplit]
        exact List.getLast?_concat _
      have hdlast : d.getLast? ≠ some '/' := by
        intro hcon
        apply hlast
        have hsplit := List.takeWhile_append_dropWhile (fun x => x ≠ '/') (c :: cs)
        rw [hd] at hsplit
        rw [← hsplit, List.getLast?_append]
        have : (('/' : Char) :: d).getLast? = some '/' := by
          rw [List.getLast?_cons, hcon]
          rfl
        rw [this]
        rfl
      rw [hd] at ih
      simp only [List.cons_append, List.drop_succ_cons, List.drop_zero] at ih
      exact ih hd' hdlast
  | case3 c cs segs t hleg =>
    intro hne hlast
    rw [List.cons_append]
    simp only [pathLoop]
    rw [show (c :: (cs ++ ['/'])) = (c :: cs) ++ ['/'] from rfl]
    rw [takeWhile_append_slash]
    rw [if_neg hleg, if_neg hleg]

theorem infix_dropWhile_slash (l : List Char) :
    ['/', '/'] <:+: l → ['/', '/'] <:+: l.dropWhile (fun x => x ≠ '/') := by
  induction l with
  | nil => intro h; simpa using (List.infix_nil.1 h)
  | cons x l ih =>
    intro h
    by_cases hx : x = '/'
    · subst hx
      rw [List.dropWhile_cons, if_neg (by simp)]
      exact h
    · rw [List.dropWhile_cons]
      have hxp : (fun x => decide (x ≠ '/')) x = true := by simp [hx]
      rw [if_pos hxp]
      apply ih
      rcases List.infix_cons_iff.1 h with hpre | hinf
      · rcases List.cons_prefix_cons.1 hpre with ⟨hc, _⟩
        exact absurd hc.symm hx
      · exact hinf

theorem isLegalFeatureName_ne_empty {s : String} (h : isLegalFeatureName s = true) :
    s.data ≠ [] := by
  intro hd
  rw [isLegalFeatureName] at h
  simp [hd] at h

theorem pathLoop_double_slash (cs : List Char) (segs : List String) :
    (['/', '/'] <:+: cs ∨ cs.head? = some '/') → (pathLoop cs segs).1 = false := by
  induction cs, segs using pathLoop.induct with
  | case1 segs =>
    rintro (hinf | hh)
    · simpa using (List.infix_nil.1 hinf)
    · simp at hh
  | case2 c cs segs t hleg ih =>
    rintro (hinf | hh)
    · have htne : t.data ≠ [] := isLegalFeatureName_ne_empty hleg
      have hc : c ≠ '/' := by
        intro hc
        apply htne
        show ((c :: cs).takeWhile (fun x => x ≠ '/')) = []
        rw [List.takeWhile_cons]
        simp [hc]
      simp only [pathLoop]
      rw [if_pos hleg]
      apply ih
      have hinf2 : ['/', '/'] <:+: cs := by
        rcases List.infix_cons_iff.1 hinf with hpre | h2
        · rcases List.cons_prefix_cons.1 hpre with ⟨h3, _⟩
          exact absurd h3.symm hc
        · exact h2
      have hdw : ((c :: cs).dropWhile (fun x => x ≠ '/')) = cs.dropWhile (fun x => x ≠ '/') := by
        rw [List.dropWhile_cons]
        simp [hc]
      have hinf3 := infix_dropWhile_slash cs hinf2
      cases hd : cs.dropWhile (fun x => x ≠ '/') with
      | nil =>
        rw [hd] at hinf3
        simpa using (List.infix_nil.1 hinf3)
      | cons y d =>
        have hy : y = '/' := by
          have := dropWhile_head_not _ _ _ _ hd
          simpa using this
        subst hy
        rw [hd] at hinf3
        rw [hdw, hd]
        simp only [List.drop_succ_cons, List.drop_zero]
        rcases List.infix_cons_iff.1 hinf3 with hpre | h2
        · rcases List.cons_prefix_cons.1 hpre with ⟨_, h4⟩
          right
          cases d with
          | nil => simp at h4
          | cons z d2 =>
            rcases List.cons_prefix_cons.1 h4 with ⟨h5, _⟩
            simp [← h5]
        · exact Or.inl h2
    · have hc : c = '/' := by simpa using hh
      have htdata : t.data = [] := by
        show ((c :: cs).takeWhile (fun x => x ≠ '/')) = []
        rw [List.takeWhile_cons]
        simp [hc]
      exact absurd htdata (isLegalFeatureName_ne_empty hleg)
  | case3 c cs segs t hleg =>
    intro h
    simp only [pathLoop]
    rw [if_neg hleg]

end Simbody

namespace Simbody

/-- Claim C9: `isLegalFeaturePathname` splits the path on `/`, validates
every captured segment with `isLegalFeatureName` (non-empty, all
characters alphanumeric or underscore), requires at least one segment,
and on failure the last captured segment is the offending one; concretely
`"a/b_2/C"` passes with segments `["a","b_2","C"]` and `"a//b"` fails
with offending segment `""`. -/
theorem claimC9 :
    (∀ path : String,
      ((isLegalFeaturePathname path).1 = true →
        (isLegalFeaturePathname path).2 ≠ [] ∧
          ∀ s ∈ (isLegalFeaturePathname path).2, isLegalFeatureName s) ∧
      ((isLegalFeaturePathname path).1 = false →
        (isLegalFeaturePathname path).2 = [] ∨
          ∃ t, (isLegalFeaturePathname path).2.getLast? = some t ∧
            isLegalFeatureName t = false)) ∧
    (∀ s : String, isLegalFeatureName s = true ↔
      (s.data ≠ [] ∧ ∀ c ∈ s.data, c.isAlphanum ∨ c = '_')) ∧
    isLegalFeaturePathname "a/b_2/C" = (true, ["a", "b_2", "C"]) ∧
    isLegalFeaturePathname "a//b" = (false, ["a", ""]) := by
  refine ⟨fun path => ⟨?_, ?_⟩, ?_, ?_, ?_⟩
  · exact fun h => pathLoop_true_spec _ _ (by simp) h
  · intro h
    rcases pathLoop_false_spec path.data [] h with ⟨h1, _⟩ | hr
    · exact Or.inl h1
    · exact Or.inr hr
  · intro s
    rw [isLegalFeatureName]
    simp [List.all_eq_true]
  · simp [isLegalFeaturePathname, pathLoop, isLegalFeatureName]
  · simp [isLegalFeaturePathname, pathLoop, isLegalFeatureName]

/-- Witness for C9 at the concrete failing path `"a//b"`. -/
theorem claimC9_witness :
    (isLegalFeaturePathname "a//b").2 = [] ∨
      ∃ t, (isLegalFeaturePathname "a//b").2.getLast? = some t ∧
        isLegalFeatureName t = false :=
  (claimC9.1 "a//b").2 (by simp [isLegalFeaturePathname, pathLoop, isLegalFeatureName])

/-- Claim C10: a single trailing slash is silently ignored — if a path not
ending in `/` is legal with segments `segs`, the same path with `/`
appended is also legal with the same `segs` — whereas a doubled slash
anywhere makes the path illegal. -/
theorem claimC10 :
    (∀ s : String, s.data.getLast? ≠ some '/' →
      (isLegalFeaturePathname s).1 = true →
      isLegalFeaturePathname (s ++ "/") = (true, (isLegalFeaturePathname s).2)) ∧
    (∀ a b : String, (isLegalFeaturePathname (a ++ "//" ++ b)).1 = false) := by
  constructor
  · intro s hlast h
    have hne : s.data ≠ [] := by
      intro hd
      rw [isLegalFeaturePathname, hd] at h
      simp only [pathLoop] at h
      simp at h
    have heq : isLegalFeaturePathname (s ++ "/") = pathLoop (s.data ++ ['/']) [] := by
      rw [isLegalFeaturePathname, String.data_append]
    rw [heq, pathLoop_append_slash s.data [] hne hlast]
    have : pathLoop s.data [] = isLegalFeaturePathname s := rfl
    rw [this]
    exact Prod.ext h rfl
  · intro a b
    apply pathLoop_double_slash
    left
    rw [String.data_append, String.data_append]
    refine ⟨a.data, b.data, ?_⟩
    simp

/-- Witness for C10: applying the theorem to the concrete legal path
`"a"`. -/
theorem claimC10_witness :
    isLegalFeaturePathname ("a" ++ "/") = (true, (isLegalFeaturePathname "a").2) :=
  claimC10.1 "a" (by simp) (by simp [isLegalFeaturePathname, pathLoop, isLegalFeatureName])

end Simbody

namespace Simbody

theorem prefix_dropLast_iff {p l : List Nat} (hne : l ≠ []) :
    p <+: l ↔ p = l ∨ p <+: l.dropLast := by
  constructor
  · intro h
    by_cases hpl : p = l
    · exact Or.inl hpl
    · right
      rw [List.dropLast_eq_take, List.prefix_take_iff]
      have hlen := h.length_le
      have hne2 : p.length ≠ l.length := fun he => hpl (h.eq_of_length he)
      exact ⟨h, by omega⟩
  · rintro (rfl | h)
    · exact List.prefix_refl _
    · exact h.trans (List.dropLast_prefix _)

theorem drop_eq_dropLast_drop (l : List Nat) (k : Nat) (hk : k < l.length) :
    l.drop k = l.dropLast.drop k ++ [l.getLastD 0] := by
  have hne : l ≠ [] := by
    intro h
    rw [h] at hk
    simp at hk
  conv_lhs => rw [← List.dropLast_append_getLast hne]
  rw [List.drop_append_of_le_length (by rw [List.length_dropLast]; omega)]
  congr 1
  rw [List.getLastD_eq_getLast?, List.getLast?_eq_getLast l hne]
  rfl

theorem mem_ancestorChain_iff (root f : FeatureRef) :
    root ∈ ancestorChain f ↔ (root.tree = f.tree ∧ root.path <+: f.path) := by
  induction f using ancestorChain.induct with
  | case1 f h =>
    rw [ancestorChain, dif_pos h]
    rw [h, List.prefix_nil]
    constructor
    · intro hm
      rw [List.mem_singleton] at hm
      subst hm
      exact ⟨rfl, h⟩
    · rintro ⟨ht, hp⟩
      rw [List.mem_singleton]
      cases root
      cases f
      simp_all
  | case2 f h ih =>
    rw [ancestorChain, dif_neg h]
    rw [List.mem_cons, ih]
    constructor
    · rintro (rfl | ⟨ht, hp⟩)
      · exact ⟨rfl, List.prefix_refl _⟩
      · exact ⟨ht, hp.trans (List.dropLast_prefix _)⟩
    · rintro ⟨ht, hp⟩
      rcases (prefix_dropLast_iff h).1 hp with he | hd
      · left
        cases root
        cases f
        simp_all
      · right
        exact ⟨ht, hd⟩

theorem isInTreeAux_spec (root fp : FeatureRef) (acc : List Nat) :
    isInTreeAux root fp acc =
      if root.tree = fp.tree ∧ root.path <+: fp.path then
        (true, acc ++ (fp.path.drop root.path.length).reverse)
      else (false, []) := by
  refine isInTreeAux.induct root
    (fun fp acc =>
      isInTreeAux root fp acc =
        if root.tree = fp.tree ∧ root.path <+: fp.path then
          (true, acc ++ (fp.path.drop root.path.length).reverse)
        else (false, []))
    ?_ ?_ ?_ fp acc
  case _ =>
    intro acc
    rw [isInTreeAux, if_pos rfl]
    rw [if_pos ⟨rfl, List.prefix_refl _⟩]
    rw [List.drop_length]
    simp
  case _ =>
    intro fp acc h1 h2
    rw [isInTreeAux, if_neg h1, dif_pos h2]
    rw [if_neg ?_]
    rintro ⟨ht, hp⟩
    rw [h2, List.prefix_nil] at hp
    apply h1
    cases root
    cases fp
    simp_all
  case _ =>
    intro fp acc h1 h2 ih
    rw [isInTreeAux, if_neg h1, dif_neg h2]
    rw [ih]
    by_cases hc : root.tree = fp.tree ∧ root.path <+: fp.path
    · have hppne : root.path ≠ fp.path := by
        intro he
        apply h1
        cases root
        cases fp
        simp_all
      have hd : root.path <+: fp.path.dropLast := by
        rcases (prefix_dropLast_iff h2).1 hc.2 with he | hd
        · exact absurd he.symm hppne.symm
        · exact hd
      rw [if_pos ⟨hc.1, hd⟩, if_pos hc]
      have hk : root.path.length < fp.path.length := by
        have h3 := hc.2.length_le
        have h4 : root.path.length ≠ fp.path.length :=
          fun he => hppne (hc.2.eq_of_length he)
        omega
      rw [drop_eq_dropLast_drop fp.path root.path.length hk]
      rw [List.reverse_append]
      show _ = (true, acc ++ ([fp.path.getLastD 0].reverse ++ _))
      rw [List.reverse_singleton]
      rw [← List.append_assoc]
      rfl
    · rw [if_neg hc, if_neg ?_]
      rintro ⟨ht, hp⟩
      exact hc ⟨ht, hp.trans (List.dropLast_prefix _)⟩

/-- Counterexample to C3 as stated: for root `⟨0,[]⟩` and node `⟨0,[0,1]⟩`
the top-down root-to-node index sequence is `[0, 1]`, but the trace the
function returns is `[1, 0]` — the indices in the order collected while
walking up, with no reversal before returning. -/
theorem claimC3_counterexample :
    (isFeatureInFeatureTree ⟨0, []⟩ ⟨0, [0, 1]⟩).1 = true ∧
    (FeatureRef.mk 0 [0, 1]).path.drop (FeatureRef.mk 0 []).path.length = [0, 1] ∧
    (isFeatureInFeatureTree ⟨0, []⟩ ⟨0, [0, 1]⟩).2 = [1, 0] ∧
    ([1, 0] : List Nat) ≠ [0, 1] := by
  refine ⟨?_, rfl, ?_, by decide⟩
  · simp [isFeatureInFeatureTree, isInTreeAux, indexInParent]
  · simp [isFeatureInFeatureTree, isInTreeAux, indexInParent]

/-- Claim C3 (amended): `isFeatureInFeatureTree root f` returns true
exactly when following `f`'s parent chain reaches `root`; when true, the
returned trace is the bottom-up sequence of child indices — the reverse
of the top-down root-to-`f` sequence, exactly as collected while walking,
with no reversal before returning; on failure the trace is cleared. -/
theorem claimC3 (root f : FeatureRef) :
    ((isFeatureInFeatureTree root f).1 = true ↔ root ∈ ancestorChain f) ∧
    ((isFeatureInFeatureTree root f).1 = true →
      (isFeatureInFeatureTree root f).2 =
        (f.path.drop root.path.length).reverse) ∧
    ((isFeatureInFeatureTree root f).1 = false →
      (isFeatureInFeatureTree root f).2 = []) := by
  rw [isFeatureInFeatureTree, isInTreeAux_spec, mem_ancestorChain_iff]
  by_cases hc : root.tree = f.tree ∧ root.path <+: f.path
  · rw [if_pos hc]
    exact ⟨⟨fun _ => hc, fun _ => rfl⟩, fun _ => by simp, by simp⟩
  · rw [if_neg hc]
    exact ⟨⟨fun h => by simp at h, fun h => absurd h hc⟩, fun h => by simp at h,
      fun _ => rfl⟩

/-- Witness for the amended C3 at root `⟨0,[]⟩`, node `⟨0,[0,1]⟩`:
the trace equals the reverse of the top-down sequence `[0, 1]`. -/
theorem claimC3_witness :
    (isFeatureInFeatureTree ⟨0, []⟩ ⟨0, [0, 1]⟩).2 = ([0, 1] : List Nat).reverse := by
  have h := (claimC3 ⟨0, []⟩ ⟨0, [0, 1]⟩).2.1
    (by simp [isFeatureInFeatureTree, isInTreeAux, indexInParent])
  simpa using h

end Simbody

namespace Simbody

theorem findRootFeature_eq (f : FeatureRef) : findRootFeature f = ⟨f.tree, []⟩ := by
  induction f using findRootFeature.induct with
  | case1 f h =>
    rw [findRootFeature, dif_pos h]
    cases f
    simp_all
  | case2 f h ih =>
    rw [findRootFeature, dif_neg h]
    exact ih

theorem ancestorChain_head (f : FeatureRef) : (ancestorChain f).head? = some f := by
  rw [ancestorChain]
  split
  · rfl
  · rfl

theorem ancestorChain_getLast (f : FeatureRef) :
    (ancestorChain f).getLast? = some ⟨f.tree, []⟩ := by
  induction f using ancestorChain.induct with
  | case1 f h =>
    rw [ancestorChain, dif_pos h]
    cases f
    simp_all
  | case2 f h ih =>
    rw [ancestorChain, dif_neg h]
    rw [List.getLast?_cons, ih]
    rfl

theorem ycaScan_self (l : List FeatureRef) :
    ∀ anc : Option FeatureRef, ycaScan l l anc = l.getLast?.or anc := by
  induction l with
  | nil => intro anc; rfl
  | cons a as ih =>
    intro anc
    simp only [ycaScan, if_pos rfl]
    rw [ih (some a), List.getLast?_cons]
    cases has : as.getLast? <;> simp [has]

theorem ycaScan_comm (a : List FeatureRef) :
    ∀ (b : List FeatureRef) (anc : Option FeatureRef), ycaScan a b anc = ycaScan b a anc := by
  induction a with
  | nil =>
    intro b anc
    cases b <;> rfl
  | cons x xs ih =>
    intro b anc
    cases b with
    | nil => rfl
    | cons y ys =>
      simp only [ycaScan]
      by_cases hxy : x = y
      · subst hxy
        rw [if_pos rfl, if_pos rfl]
        exact ih ys (some x)
      · rw [if_neg hxy, if_neg (fun h => hxy h.symm)]

theorem ycaScan_isSome (a : List FeatureRef) :
    ∀ (b : List FeatureRef) (anc : Option FeatureRef),
      anc.isSome = true → (ycaScan a b anc).isSome = true := by
  induction a with
  | nil =>
    intro b anc h
    cases b <;> simpa [ycaScan] using h
  | cons x xs ih =>
    intro b anc h
    cases b with
    | nil => simpa [ycaScan] using h
    | cons y ys =>
      simp only [ycaScan]
      by_cases hxy : x = y
      · rw [if_pos hxy]
        exact ih ys (some x) rfl
      · rw [if_neg hxy]
        exact h

/-- Claim C4: `findYoungestCommonAncestor` is symmetric, maps a pair of
identical Features to that Feature, and returns `none` exactly when the
two Features have different tree roots. -/
theorem claimC4 (a b : FeatureRef) :
    findYoungestCommonAncestor a b = findYoungestCommonAncestor b a ∧
    findYoungestCommonAncestor a a = some a ∧
    (findYoungestCommonAncestor a b = none ↔
      findRootFeature a ≠ findRootFeature b) := by
  refine ⟨ycaScan_comm _ _ _, ?_, ?_⟩
  · rw [findYoungestCommonAncestor, ycaScan_self, List.getLast?_reverse,
      ancestorChain_head]
    rfl
  · rw [findRootFeature_eq, findRootFeature_eq]
    have ha : (ancestorChain a).reverse.head? = some ⟨a.tree, []⟩ := by
      rw [List.head?_reverse, ancestorChain_getLast]
    have hb : (ancestorChain b).reverse.head? = some ⟨b.tree, []⟩ := by
      rw [List.head?_reverse, ancestorChain_getLast]
    rcases List.head?_eq_some_iff.1 ha with ⟨ta, hta⟩
    rcases List.head?_eq_some_iff.1 hb with ⟨tb, htb⟩
    rw [findYoungestCommonAncestor, hta, htb]
    constructor
    · intro hnone hroot
      rw [hroot] at hnone
      simp only [ycaScan, eq_self_iff_true, if_true] at hnone
      have := ycaScan_isSome ta tb (some (⟨b.tree, []⟩ : FeatureRef)) rfl
      rw [hnone] at this
      simp at this
    · intro hne
      have hx : (⟨a.tree, []⟩ : FeatureRef) ≠ ⟨b.tree, []⟩ := by
        intro hcon
        apply hne
        injection hcon with h1 h2
        rw [h1]
      simp only [ycaScan]
      rw [if_neg hx]

end Simbody

namespace Simbody

@[simp] theorem subfeatures_withSubfeatures (n : FeatureNode) (ss : List FeatureNode) :
    (n.withSubfeatures ss).subfeatures = ss := by
  cases n
  rfl

@[simp] theorem name_withSubfeatures (n : FeatureNode) (ss : List FeatureNode) :
    (n.withSubfeatures ss).name = n.name := by
  cases n
  rfl

@[simp] theorem exprs_withSubfeatures (n : FeatureNode) (ss : List FeatureNode) :
    (n.withSubfeatures ss).placementExpressions = n.placementExpressions := by
  cases n
  rfl

@[simp] theorem active_withSubfeatures (n : FeatureNode) (ss : List FeatureNode) :
    (n.withSubfeatures ss).activePlacement = n.activePlacement := by
  cases n
  rfl

@[simp] theorem numVals_withSubfeatures (n : FeatureNode) (ss : List FeatureNode) :
    (n.withSubfeatures ss).numPlacementValues = n.numPlacementValues := by
  cases n
  rfl

@[simp] theorem subfeatures_appendExpr (p : PlacementExpr) (n : FeatureNode) :
    (n.appendExpr p).subfeatures = n.subfeatures := by
  cases n
  rfl

@[simp] theorem exprs_appendExpr (p : PlacementExpr) (n : FeatureNode) :
    (n.appendExpr p).placementExpressions = n.placementExpressions ++ [p] := by
  cases n
  rfl

@[simp] theorem active_appendExpr (p : PlacementExpr) (n : FeatureNode) :
    (n.appendExpr p).activePlacement = n.activePlacement := by
  cases n
  rfl

@[simp] theorem subfeatures_setActive (a : Option PlacementRef) (n : FeatureNode) :
    (n.setActive a).subfeatures = n.subfeatures := by
  cases n
  rfl

@[simp] theorem exprs_setActive (a : Option PlacementRef) (n : FeatureNode) :
    (n.setActive a).placementExpressions = n.placementExpressions := by
  cases n
  rfl

@[simp] theorem active_setActive (a : Option PlacementRef) (n : FeatureNode) :
    (n.setActive a).activePlacement = a := by
  cases n
  rfl

theorem resolveIn_append (n : FeatureNode) (a b : List Nat) :
    resolveIn n (a ++ b) = (resolveIn n a).bind (fun m => resolveIn m b) := by
  induction a generalizing n with
  | nil => rfl
  | cons i a2 ih =>
    show (n.subfeatures[i]?).bind (fun c => resolveIn c (a2 ++ b)) = _
    cases hc : n.subfeatures[i]? with
    | none => simp [resolveIn, hc]
    | some c => simp [resolveIn, hc, ih]

/-- Master lemma: how `updateIn` at path `p` affects any field read through
`resolveIn` at path `q`, for an update that leaves the child list alone. -/
theorem resolveIn_updateIn {α : Type} (φ : FeatureNode → α)
    (g : FeatureNode → FeatureNode)
    (hφ : ∀ m ss, φ (m.withSubfeatures ss) = φ m)
    (hg : ∀ m, (g m).subfeatures = m.subfeatures) :
    ∀ (p : List Nat) (n : FeatureNode) (q : List Nat),
      (resolveIn (updateIn g n p) q).map φ =
        if q = p then (resolveIn n q).map (fun m => φ (g m))
        else (resolveIn n q).map φ := by
  intro p
  induction p with
  | nil =>
    intro n q
    show (resolveIn (g n) q).map φ = _
    cases q with
    | nil =>
      rw [if_pos rfl]
      rfl
    | cons j qs =>
      rw [if_neg (by simp)]
      show ((g n).subfeatures[j]?.bind (fun c => resolveIn c qs)).map φ = _
      rw [hg]
      rfl
  | cons i ps ih =>
    intro n q
    cases hgi : n.subfeatures[i]? with
    | none =>
      have hupd : updateIn g n (i :: ps) = n := by
        rw [updateIn, hgi]
      rw [hupd]
      by_cases hq : q = i :: ps
      · rw [if_pos hq, hq]
        simp [resolveIn, hgi]
      · rw [if_neg hq]
    | some c =>
      have hupd : updateIn g n (i :: ps) =
          n.withSubfeatures (n.subfeatures.set i (updateIn g c ps)) := by
        rw [updateIn, hgi]
      rw [hupd]
      cases q with
      | nil =>
        rw [if_neg (by simp)]
        show some (φ (n.withSubfeatures _)) = some (φ n)
        rw [hφ]
      | cons j qs =>
        show (((n.withSubfeatures _).subfeatures[j]?).bind (fun d => resolveIn d qs)).map φ = _
        rw [subfeatures_withSubfeatures]
        by_cases hij : i = j
        · subst hij
          have hlen : i < n.subfeatures.length := by
            rcases List.getElem?_eq_some_iff.1 hgi with ⟨h1, _⟩
            exact h1
          rw [List.getElem?_set_self hlen]
          show (resolveIn (updateIn g c ps) qs).map φ = _
          rw [ih c qs]
          by_cases hqp : qs = ps
          · rw [if_pos hqp, if_pos (by rw [hqp]), hqp]
            show _ = ((n.subfeatures[i]?).bind (fun d => resolveIn d ps)).map _
            rw [hgi]
            rfl
          · rw [if_neg hqp, if_neg (by simp [hqp])]
            show _ = ((n.subfeatures[i]?).bind (fun d => resolveIn d qs)).map φ
            rw [hgi]
            rfl
        · rw [List.getElem?_set_ne hij]
          have hne2 : (j :: qs) ≠ (i :: ps) := by
            intro hcon
            injection hcon with h1 h2
            exact hij h1.symm
          rw [if_neg hne2]
          rfl

end Simbody

namespace Simbody

/-- World-level form of the master lemma. -/
theorem resolve_updateAt {α : Type} (φ : FeatureNode → α)
    (g : FeatureNode → FeatureNode)
    (hφ : ∀ m ss, φ (m.withSubfeatures ss) = φ m)
    (hg : ∀ m, (g m).subfeatures = m.subfeatures)
    (w : World) (f x : FeatureRef) :
    (resolve (updateAt g w f) x).map φ =
      if x = f then (resolve w x).map (fun m => φ (g m))
      else (resolve w x).map φ := by
  rw [updateAt]
  cases hw : w[f.tree]? with
  | none =>
    by_cases hx : x = f
    · rw [if_pos hx, hx]
      show (resolve w f).map φ = (resolve w f).map _
      rw [resolve, hw]
      rfl
    · rw [if_neg hx]
  | some n =>
    by_cases ht : x.tree = f.tree
    · rw [resolve, resolve, ht, hw]
      have hlen : f.tree < w.length := by
        rcases List.getElem?_eq_some_iff.1 hw with ⟨h1, _⟩
        exact h1
      rw [List.getElem?_set_self hlen]
      show (resolveIn (updateIn g n f.path) x.path).map φ = _
      rw [resolveIn_updateIn φ g hφ hg f.path n x.path]
      by_cases hp : x.path = f.path
      · rw [if_pos hp, if_pos (by cases x; cases f; simp_all)]
        rfl
      · rw [if_neg hp, if_neg (by intro hcon; exact hp (by rw [hcon]))]
        rfl
    · have hx : x ≠ f := by
        intro hcon
        exact ht (by rw [hcon])
      rw [if_neg hx, resolve, resolve, List.getElem?_set_ne (fun h => ht h.symm)]

theorem activeOf_congr (w1 w2 : World) (r : FeatureRef)
    (h : (resolve w2 r).map FeatureNode.activePlacement =
      (resolve w1 r).map FeatureNode.activePlacement) :
    activeOf w2 r = activeOf w1 r := by
  rw [activeOf, activeOf]
  cases h1 : resolve w1 r <;> cases h2 : resolve w2 r <;>
    rw [h1, h2] at h <;> simp_all

theorem exprAt_congr (w1 w2 : World) (a : PlacementRef)
    (h : (resolve w2 a.1).map FeatureNode.placementExpressions =
      (resolve w1 a.1).map FeatureNode.placementExpressions) :
    exprAt w2 a = exprAt w1 a := by
  rw [exprAt, exprAt]
  cases h1 : resolve w1 a.1 <;> cases h2 : resolve w2 a.1 <;>
    rw [h1, h2] at h <;> simp_all

theorem countPlacements_node (nm ft : String) (rt : PlacementType)
    (ss : List FeatureNode) (pe : List PlacementExpr) (nv : Nat)
    (ap : Option PlacementRef) :
    countPlacements (.node nm ft rt ss pe nv ap) =
      pe.length + (ss.map countPlacements).sum := by
  rw [countPlacements]
  congr 1
  exact congrArg List.sum (List.attach_map_coe ss countPlacements)

theorem set_eq_of_getElem? {α : Type} (L : List α) (i : Nat) (v : α)
    (h : L[i]? = some v) : L.set i v = L := by
  induction L generalizing i with
  | nil => simp at h
  | cons a l ih =>
    cases i with
    | zero =>
      simp only [List.getElem?_cons_zero, Option.some.injEq] at h
      rw [← h]
      rfl
    | succ k =>
      simp only [List.getElem?_cons_succ] at h
      show a :: l.set k v = a :: l
      rw [ih k h]

theorem countPlacements_updateIn (g : FeatureNode → FeatureNode)
    (hg : ∀ m, countPlacements (g m) = countPlacements m) :
    ∀ (p : List Nat) (n : FeatureNode),
      countPlacements (updateIn g n p) = countPlacements n := by
  intro p
  induction p with
  | nil => intro n; exact hg n
  | cons i ps ih =>
    intro n
    cases hgi : n.subfeatures[i]? with
    | none => rw [updateIn, hgi]
    | some c =>
      rw [updateIn, hgi]
      cases n with
      | node nm ft rt ss pe nv ap =>
        simp only [FeatureNode.withSubfeatures]
        rw [countPlacements_node, countPlacements_node]
        congr 1
        rw [List.map_set]
        rw [ih c]
        apply congrArg List.sum
        apply set_eq_of_getElem?
        rw [List.getElem?_map]
        simp only [FeatureNode.subfeatures] at hgi ⊢
        rw [hgi]
        rfl

theorem countPlacements_setActive (a : Option PlacementRef) (m : FeatureNode) :
    countPlacements (m.setActive a) = countPlacements m := by
  cases m
  rw [FeatureNode.setActive, countPlacements_node, countPlacements_node]

theorem worldPlacementCount_updateAt (g : FeatureNode → FeatureNode)
    (hg : ∀ m, countPlacements (g m) = countPlacements m)
    (w : World) (f : FeatureRef) :
    worldPlacementCount (updateAt g w f) = worldPlacementCount w := by
  rw [updateAt]
  cases hw : w[f.tree]? with
  | none => rfl
  | some n =>
    rw [worldPlacementCount, worldPlacementCount, List.map_set,
      countPlacements_updateIn g hg]
    apply congrArg List.sum
    apply set_eq_of_getElem?
    rw [List.getElem?_map, hw]
    rfl

theorem dependsOnFuel_congr (w1 w2 : World) (F : FeatureRef)
    (hact : ∀ r, r ≠ F → activeOf w2 r = activeOf w1 r)
    (hexpr : ∀ a, exprAt w2 a = exprAt w1 a) :
    ∀ (fuel : Nat) (p : PlacementExpr),
      dependsOnFuel w2 fuel p F = dependsOnFuel w1 fuel p F := by
  intro fuel
  induction fuel with
  | zero => intro p; rfl
  | succ k ih =>
    intro p
    rw [dependsOnFuel, dependsOnFuel]
    apply congrArg
    apply funext
    intro r
    by_cases hr : r = F
    · simp [hr]
    · rw [hact r hr]
      have hbind : (activeOf w1 r).bind (fun a => exprAt w2 a) =
          (activeOf w1 r).bind (fun a => exprAt w1 a) := by
        cases activeOf w1 r with
        | none => rfl
        | some a => exact hexpr a
      rw [hbind]
      have hmap : ∀ o : Option PlacementExpr,
          (o.map (fun q => dependsOnFuel w2 k q F)).getD false =
          (o.map (fun q => dependsOnFuel w1 k q F)).getD false := by
        intro o
        cases o with
        | none => rfl
        | some q => simp [ih q]
      rw [hmap]

end Simbody

namespace Simbody

theorem addPlacementLike_ok_inversion (w : World) (owner : FeatureRef)
    (p : PlacementExpr) (w1 : World) (idx : Nat)
    (h : addPlacementLike w owner p = .ok (w1, idx)) :
    ∃ onode, resolve w owner = some onode ∧
      firstOffendingRef owner p = none ∧
      w1 = updateAt (FeatureNode.appendExpr p) w owner ∧
      idx = onode.placementExpressions.length := by
  cases hres : resolve w owner with
  | none =>
    simp only [addPlacementLike, hres] at h
    exact Except.noConfusion h
  | some onode =>
    cases hoff : firstOffendingRef owner p with
    | some off =>
      simp only [addPlacementLike, hres, hoff] at h
      exact Except.noConfusion h
    | none =>
      simp only [addPlacementLike, hres, hoff, Except.ok.injEq, Prod.mk.injEq] at h
      exact ⟨onode, rfl, rfl, h.1.symm, h.2.symm⟩

theorem place_ok_inversion
    (conv : World → FeatureRef → PlacementExpr → Option PlacementExpr)
    (w : World) (F : FeatureRef) (p : PlacementExpr)
    (w2 : World) (own : FeatureRef) (idx : Nat)
    (h : place conv w F p = .ok (w2, own, idx)) :
    ∃ fn pTweaked w1,
      resolve w F = some fn ∧
      (if p.ptype = fn.requiredType then some p else conv w F p) = some pTweaked ∧
      pTweaked.ptype = fn.requiredType ∧
      firstOffendingRef (findRootFeature F) pTweaked = none ∧
      findAncestorFeature pTweaked
        (match parentRef F with | some par => par | none => F) = some own ∧
      addPlacementLike w own pTweaked = .ok (w1, idx) ∧
      (isConstantP pTweaked || decide (own ≠ F)) = true ∧
      (isFeatureInFeatureTree own F).1 = true ∧
      dependsOnB w1 pTweaked F = false ∧
      w2 = setActivePlacement w1 F (some (own, idx)) := by
  cases hres : resolve w F with
  | none =>
    simp only [place, hres] at h
    exact Except.noConfusion h
  | some fn =>
    cases htw : (if p.ptype = fn.requiredType then some p else conv w F p) with
    | none =>
      simp only [place, hres, htw] at h
      exact Except.noConfusion h
    | some pTweaked =>
      by_cases hty : pTweaked.ptype = fn.requiredType
      case neg =>
        simp only [place, hres, htw, if_pos hty] at h
        exact Except.noConfusion h
      case pos =>
        cases hoff : firstOffendingRef (findRootFeature F) pTweaked with
        | some off =>
          simp only [place, hres, htw, if_neg (not_not_intro hty), hoff] at h
          exact Except.noConfusion h
        | none =>
          cases hanc : findAncestorFeature pTweaked
              (match parentRef F with | some par => par | none => F) with
          | none =>
            simp only [place, hres, htw, if_neg (not_not_intro hty), hoff, hanc] at h
            exact Except.noConfusion h
          | some ca =>
            cases hadd : addPlacementLike w ca pTweaked with
            | error e =>
              simp only [place, hres, htw, if_neg (not_not_intro hty), hoff, hanc,
                hadd] at h
              exact Except.noConfusion h
            | ok pair =>
              rcases pair with ⟨w1, index⟩
              by_cases hsane : ((isConstantP pTweaked || decide (ca ≠ F))
                  && (isFeatureInFeatureTree ca F).1
                  && !(dependsOnB w1 pTweaked F)) = true
              case neg =>
                simp only [place, hres, htw, if_neg (not_not_intro hty), hoff, hanc,
                  hadd, if_neg hsane] at h
                exact Except.noConfusion h
              case pos =>
                simp only [place, hres, htw, if_neg (not_not_intro hty), hoff, hanc,
                  hadd, if_pos hsane, Except.ok.injEq, Prod.mk.injEq] at h
                rcases h with ⟨hw2, hca, hidx⟩
                subst hca
                subst hidx
                simp only [Bool.and_eq_true] at hsane
                refine ⟨fn, pTweaked, w1, rfl, htw, hty, hoff, hanc, hadd, ?_, ?_, ?_, hw2.symm⟩
                · exact hsane.1.1
                · exact hsane.1.2
                · simpa using hsane.2

end Simbody

namespace Simbody

@[simp] theorem name_appendExpr (p : PlacementExpr) (n : FeatureNode) :
    (n.appendExpr p).name = n.name := by
  cases n
  rfl

@[simp] theorem name_setActive (a : Option PlacementRef) (n : FeatureNode) :
    (n.setActive a).name = n.name := by
  cases n
  rfl

/-- Success-path equation for `place`: when each stage goes through, the
call stores the (possibly conversion-free) placement at the computed
common ancestor and activates it on the target Feature. -/
theorem place_ok_forward
    (conv : World → FeatureRef → PlacementExpr → Option PlacementExpr)
    (w : World) (F ya ca : FeatureRef) (p : PlacementExpr)
    (fn onode : FeatureNode)
    (hres : resolve w F = some fn)
    (hty : p.ptype = fn.requiredType)
    (hoff : firstOffendingRef (findRootFeature F) p = none)
    (hya : (match parentRef F with | some par => par | none => F) = ya)
    (hanc : findAncestorFeature p ya = some ca)
    (hresca : resolve w ca = some onode)
    (hoffca : firstOffendingRef ca p = none)
    (hsane : (isConstantP p || decide (ca ≠ F)) = true)
    (hintree : (isFeatureInFeatureTree ca F).1 = true)
    (hdep : dependsOnB (updateAt (FeatureNode.appendExpr p) w ca) p F = false) :
    place conv w F p = .ok
      (setActivePlacement (updateAt (FeatureNode.appendExpr p) w ca) F
        (some (ca, onode.placementExpressions.length)),
        ca, onode.placementExpressions.length) := by
  have hadd : addPlacementLike w ca p =
      .ok (updateAt (FeatureNode.appendExpr p) w ca,
        onode.placementExpressions.length) := by
    simp only [addPlacementLike, hresca, hoffca]
  simp only [place, hres, if_pos hty, if_neg (not_not_intro hty), hoff, hya, hanc,
    hadd, hsane, hintree, hdep, Bool.not_false, Bool.and_true, Bool.true_and]
  exact if_pos trivial

/-- Claim C6: `addPlacementLike` succeeds exactly when every directly
referenced Feature lies in the owner's own subtree; a violation raises
`PlacementMustBeLocal` naming the owner and the first offender; on
success the placement is appended to the owner's expression sequence at
index equal to its previous length. -/
theorem claimC6 (w : World) (O : FeatureRef) (p : PlacementExpr)
    (onode : FeatureNode) (hres : resolve w O = some onode) :
    ((∃ w1 idx, addPlacementLike w O p = .ok (w1, idx)) ↔
      ∀ r ∈ featureRefs p, (isFeatureInFeatureTree O r).1 = true) ∧
    (∀ off, firstOffendingRef O p = some off →
      addPlacementLike w O p = .error (.placementMustBeLocal
        "FeatureRep::addPlacementLike" (getFullName w O) (getFullName w off)) ∧
      off ∈ featureRefs p ∧ (isFeatureInFeatureTree O off).1 = false) ∧
    (firstOffendingRef O p = none →
      addPlacementLike w O p = .ok
        (updateAt (FeatureNode.appendExpr p) w O,
          onode.placementExpressions.length) ∧
      (resolve (updateAt (FeatureNode.appendExpr p) w O) O).map
          FeatureNode.placementExpressions =
        some (onode.placementExpressions ++ [p]) ∧
      exprAt (updateAt (FeatureNode.appendExpr p) w O)
        (O, onode.placementExpressions.length) = some p) := by
  have hmap : ∀ hnone : firstOffendingRef O p = none,
      (resolve (updateAt (FeatureNode.appendExpr p) w O) O).map
          FeatureNode.placementExpressions =
        some (onode.placementExpressions ++ [p]) := by
    intro hnone
    rw [resolve_updateAt FeatureNode.placementExpressions
      (FeatureNode.appendExpr p) exprs_withSubfeatures (subfeatures_appendExpr p)
      w O O]
    rw [if_pos rfl, hres]
    simp
  refine ⟨⟨?_, ?_⟩, ?_, ?_⟩
  · rintro ⟨w1, idx, hok⟩
    rcases addPlacementLike_ok_inversion w O p w1 idx hok with ⟨o2, _, hoff2, _, _⟩
    intro r hr
    have := List.find?_eq_none.1 hoff2 r hr
    simpa using this
  · intro hall
    have hnone : firstOffendingRef O p = none := by
      rw [firstOffendingRef]
      rw [List.find?_eq_none]
      intro r hr
      simp [hall r hr]
    exact ⟨updateAt (FeatureNode.appendExpr p) w O, onode.placementExpressions.length,
      by simp only [addPlacementLike, hres, hnone]⟩
  · intro off hoff
    refine ⟨by simp only [addPlacementLike, hres, hoff], ?_, ?_⟩
    · exact List.mem_of_find?_eq_some hoff
    · have := List.find?_some hoff
      simpa using this
  · intro hnone
    refine ⟨by simp only [addPlacementLike, hres, hnone], hmap hnone, ?_⟩
    rcases Option.map_eq_some'.1 (hmap hnone) with ⟨m, hm, hme⟩
    rw [exprAt, hm]
    show m.placementExpressions[onode.placementExpressions.length]? = some p
    rw [hme, List.getElem?_concat_length]

/-- Witness for C6: register a constant placement on a one-node world. -/
theorem claimC6_witness :
    (∃ w1 idx, addPlacementLike [FeatureNode.node "R" "K" PlacementType.RealT [] [] 0 none]
      ⟨0, []⟩ ⟨PlacementType.RealT, [], none⟩ = .ok (w1, idx)) ↔
      ∀ r ∈ featureRefs (⟨PlacementType.RealT, [], none⟩ : PlacementExpr),
        (isFeatureInFeatureTree ⟨0, []⟩ r).1 = true :=
  (claimC6 [FeatureNode.node "R" "K" PlacementType.RealT [] [] 0 none]
    ⟨0, []⟩ ⟨PlacementType.RealT, [], none⟩
    (FeatureNode.node "R" "K" PlacementType.RealT [] [] 0 none) rfl).1

end Simbody

namespace Simbody

/-- Counterexample to C7 as stated: on a Feature `F` (path `"F"`, kind
`"TestKind"`) requiring category Station, placing a Real placement with a
failing conversion raises `PlacementCantBeUsedForThisFeature` whose
context is the placement's own produced category `"Real"`, `F`'s path and
`F`'s kind — the required category `"Station"` appears nowhere in the
error. -/
theorem claimC7_counterexample :
    place (fun _ _ _ => none)
      [FeatureNode.node "F" "TestKind" PlacementType.StationT [] [] 0 none]
      ⟨0, []⟩ ⟨PlacementType.RealT, [], none⟩ =
      .error (.placementCantBeUsedForThisFeature "Real" "F" "TestKind") ∧
    placementTypeName PlacementType.StationT = "Station" ∧
    ("Station" : String) ∉ (["Real", "F", "TestKind"] : List String) := by
  refine ⟨?_, rfl, by decide⟩
  have hres : resolve [FeatureNode.node "F" "TestKind" PlacementType.StationT [] [] 0 none]
      (⟨0, []⟩ : FeatureRef) =
      some (FeatureNode.node "F" "TestKind" PlacementType.StationT [] [] 0 none) := rfl
  have hfull : getFullName
      [FeatureNode.node "F" "TestKind" PlacementType.StationT [] [] 0 none]
      (⟨0, []⟩ : FeatureRef) = "F" := by
    rw [getFullName]
    simp [nameAt, hres, FeatureNode.name]
  simp only [place, hres, hfull]
  rw [if_neg (by simp [FeatureNode.requiredType])]
  rfl

/-- Claim C7 (amended): when the placement's produced category differs
from the Feature's required category and the conversion collaborator
fails, `place` raises `PlacementCantBeUsedForThisFeature` whose context
names the placement's produced category, the Feature's full path and the
Feature's kind (not the required category). -/
theorem claimC7
    (conv : World → FeatureRef → PlacementExpr → Option PlacementExpr)
    (w : World) (F : FeatureRef) (p : PlacementExpr) (fn : FeatureNode)
    (hres : resolve w F = some fn)
    (hty : p.ptype ≠ fn.requiredType)
    (hconv : conv w F p = none) :
    place conv w F p = .error (.placementCantBeUsedForThisFeature
      (placementTypeName p.ptype) (getFullName w F) fn.ftypeName) := by
  simp only [place, hres, if_neg hty, hconv]

/-- Witness for the amended C7 at the concrete Station-requiring Feature. -/
theorem claimC7_witness :
    place (fun _ _ _ => none)
      [FeatureNode.node "F" "TestKind" PlacementType.StationT [] [] 0 none]
      ⟨0, []⟩ ⟨PlacementType.RealT, [], none⟩ =
      .error (.placementCantBeUsedForThisFeature
        (placementTypeName PlacementType.RealT)
        (getFullName [FeatureNode.node "F" "TestKind" PlacementType.StationT [] [] 0 none]
          ⟨0, []⟩)
        (FeatureNode.node "F" "TestKind" PlacementType.StationT [] [] 0 none).ftypeName) :=
  claimC7 (fun _ _ _ => none)
    [FeatureNode.node "F" "TestKind" PlacementType.StationT [] [] 0 none]
    ⟨0, []⟩ ⟨PlacementType.RealT, [], none⟩
    (FeatureNode.node "F" "TestKind" PlacementType.StationT [] [] 0 none)
    rfl (by simp [FeatureNode.requiredType]) rfl

end Simbody

namespace Simbody

/-- Claim C1: for a placement with no Feature references, a successful
`place` stores the placement on the Feature itself when it is a tree
root, and on its parent — never on the Feature — otherwise; the Feature's
active placement then points at the stored copy. -/
theorem claimC1
    (conv : World → FeatureRef → PlacementExpr → Option PlacementExpr)
    (w : World) (F : FeatureRef) (p : PlacementExpr) (fn : FeatureNode)
    (w' : World) (own : FeatureRef) (idx : Nat)
    (hres : resolve w F = some fn)
    (hty : p.ptype = fn.requiredType)
    (hnoref : featureRefs p = [])
    (hok : place conv w F p = .ok (w', own, idx)) :
    own = (match parentRef F with | some par => par | none => F) ∧
    (F.path = [] → own = F) ∧
    (F.path ≠ [] → own = ⟨F.tree, F.path.dropLast⟩ ∧ own ≠ F) ∧
    activeOf w' F = some (own, idx) := by
  rcases place_ok_inversion conv w F p w' own idx hok with
    ⟨fn2, pT, w1, hres2, htw, hty2, hoff, hanc, hadd, hsane, hintree, hdep, hw'⟩
  rw [hres] at hres2
  injection hres2 with hfn2
  subst hfn2
  rw [if_pos hty] at htw
  injection htw with hpT
  subst hpT
  rw [findAncestorFeature, hnoref, List.foldl_nil] at hanc
  injection hanc with hya
  refine ⟨hya.symm, ?_, ?_, ?_⟩
  · intro hroot
    rw [← hya]
    simp [parentRef, hroot]
  · intro hne
    have hown : own = ⟨F.tree, F.path.dropLast⟩ := by
      rw [← hya]
      simp [parentRef, hne]
    refine ⟨hown, ?_⟩
    rw [hown]
    intro heq
    have hpp : F.path.dropLast = F.path := congrArg FeatureRef.path heq
    have h1 : F.path.dropLast.length = F.path.length := by rw [hpp]
    rw [List.length_dropLast] at h1
    have h0 : F.path.length ≠ 0 := fun hz => hne (List.eq_nil_of_length_eq_zero hz)
    omega
  · rcases addPlacementLike_ok_inversion w own p w1 idx hadd with
      ⟨onode, hro, hoffo, hw1, hidx⟩
    have hname : (resolve w1 F).map FeatureNode.name =
        (resolve w F).map FeatureNode.name := by
      rw [hw1, resolve_updateAt FeatureNode.name (FeatureNode.appendExpr p)
        name_withSubfeatures (subfeatures_appendExpr p) w own F]
      have hfe : (fun m => (FeatureNode.appendExpr p m).name) = FeatureNode.name :=
        funext (fun m => name_appendExpr p m)
      split
      · rw [hfe]
      · rfl
    rw [hres] at hname
    rcases Option.map_eq_some'.1 hname with ⟨m1, hm1, _⟩
    have hactive : (resolve w' F).map FeatureNode.activePlacement =
        some (some (own, idx)) := by
      rw [hw', setActivePlacement,
        resolve_updateAt FeatureNode.activePlacement
          (FeatureNode.setActive (some (own, idx))) active_withSubfeatures
          (subfeatures_setActive (some (own, idx))) w1 F F,
        if_pos rfl, hm1]
      simp
    rcases Option.map_eq_some'.1 hactive with ⟨m2, hm2, hma⟩
    rw [activeOf, hm2]
    exact hma

/-- Claim C8: a successful `place` call never stores a placement that
depends on the Feature it is attached to — the post-registration
invariant check rejects any such placement, so on success the stored
expression's dependency test against the target Feature is false. -/
theorem claimC8
    (conv : World → FeatureRef → PlacementExpr → Option PlacementExpr)
    (w : World) (F : FeatureRef) (p : PlacementExpr)
    (w' : World) (own : FeatureRef) (idx : Nat)
    (hok : place conv w F p = .ok (w', own, idx)) :
    ∃ q, exprAt w' (own, idx) = some q ∧ dependsOnB w' q F = false := by
  rcases place_ok_inversion conv w F p w' own idx hok with
    ⟨fn, pT, w1, hres, htw, hty2, hoff, hanc, hadd, hsane, hintree, hdep, hw'⟩
  rcases addPlacementLike_ok_inversion w own pT w1 idx hadd with
    ⟨onode, hro, hoffo, hw1, hidx⟩
  have hexprs_eq : ∀ a, exprAt w' a = exprAt w1 a := by
    intro a
    apply exprAt_congr
    rw [hw', setActivePlacement,
      resolve_updateAt FeatureNode.placementExpressions
        (FeatureNode.setActive (some (own, idx))) exprs_withSubfeatures
        (subfeatures_setActive (some (own, idx))) w1 F a.1]
    have hfe : (fun m => (FeatureNode.setActive (some (own, idx)) m).placementExpressions) =
        FeatureNode.placementExpressions :=
      funext (fun m => exprs_setActive (some (own, idx)) m)
    split
    · rw [hfe]
    · rfl
  refine ⟨pT, ?_, ?_⟩
  · have hmap1 : (resolve w1 own).map FeatureNode.placementExpressions =
        some (onode.placementExpressions ++ [pT]) := by
      rw [hw1, resolve_updateAt FeatureNode.placementExpressions
        (FeatureNode.appendExpr pT) exprs_withSubfeatures
        (subfeatures_appendExpr pT) w own own, if_pos rfl, hro]
      simp
    rw [hexprs_eq]
    rcases Option.map_eq_some'.1 hmap1 with ⟨m, hm, hme⟩
    rw [exprAt, hm]
    show m.placementExpressions[idx]? = some pT
    rw [hme, hidx, List.getElem?_concat_length]
  · have hcount : worldPlacementCount w' = worldPlacementCount w1 := by
      rw [hw', setActivePlacement]
      exact worldPlacementCount_updateAt _ (countPlacements_setActive _) w1 F
    have hcongr : ∀ fuel q, dependsOnFuel w' fuel q F = dependsOnFuel w1 fuel q F := by
      apply dependsOnFuel_congr
      · intro r hr
        apply activeOf_congr
        rw [hw', setActivePlacement,
          resolve_updateAt FeatureNode.activePlacement
            (FeatureNode.setActive (some (own, idx))) active_withSubfeatures
            (subfeatures_setActive (some (own, idx))) w1 F r, if_neg hr]
      · exact hexprs_eq
    rw [dependsOnB, hcount, hcongr]
    exact hdep

end Simbody

namespace Simbody

/-- Concrete run: placing a constant Real placement on the non-root child
`A` of `Root` succeeds, storing the placement on `Root` at index 0. -/
theorem place_concrete_ok :
    place (fun _ _ _ => none)
      [FeatureNode.node "Root" "K" PlacementType.RealT
        [FeatureNode.node "A" "K" PlacementType.RealT [] [] 0 none] [] 0 none]
      ⟨0, [0]⟩ ⟨PlacementType.RealT, [], none⟩ =
      .ok (setActivePlacement
            (updateAt (FeatureNode.appendExpr ⟨PlacementType.RealT, [], none⟩)
              [FeatureNode.node "Root" "K" PlacementType.RealT
                [FeatureNode.node "A" "K" PlacementType.RealT [] [] 0 none] [] 0 none]
              ⟨0, []⟩)
            ⟨0, [0]⟩ (some (⟨0, []⟩, 0)),
          ⟨0, []⟩, 0) :=
  place_ok_forward (fun _ _ _ => none)
    [FeatureNode.node "Root" "K" PlacementType.RealT
      [FeatureNode.node "A" "K" PlacementType.RealT [] [] 0 none] [] 0 none]
    ⟨0, [0]⟩ ⟨0, []⟩ ⟨0, []⟩ ⟨PlacementType.RealT, [], none⟩
    (FeatureNode.node "A" "K" PlacementType.RealT [] [] 0 none)
    (FeatureNode.node "Root" "K" PlacementType.RealT
      [FeatureNode.node "A" "K" PlacementType.RealT [] [] 0 none] [] 0 none)
    rfl rfl rfl rfl rfl rfl rfl rfl
    (by simp [isFeatureInFeatureTree, isInTreeAux, indexInParent]) rfl

/-- Witness for C1: in the concrete run the owner is `A`'s parent `Root`
and `A`'s active placement points at the stored copy. -/
theorem claimC1_witness :
    activeOf (setActivePlacement
      (updateAt (FeatureNode.appendExpr ⟨PlacementType.RealT, [], none⟩)
        [FeatureNode.node "Root" "K" PlacementType.RealT
          [FeatureNode.node "A" "K" PlacementType.RealT [] [] 0 none] [] 0 none]
        ⟨0, []⟩)
      ⟨0, [0]⟩ (some (⟨0, []⟩, 0))) ⟨0, [0]⟩ = some (⟨0, []⟩, 0) :=
  (claimC1 (fun _ _ _ => none)
    [FeatureNode.node "Root" "K" PlacementType.RealT
      [FeatureNode.node "A" "K" PlacementType.RealT [] [] 0 none] [] 0 none]
    ⟨0, [0]⟩ ⟨PlacementType.RealT, [], none⟩
    (FeatureNode.node "A" "K" PlacementType.RealT [] [] 0 none)
    _ _ _ rfl rfl rfl place_concrete_ok).2.2.2

/-- Witness for C8: in the concrete run the stored placement does not
depend on the Feature it was attached to. -/
theorem claimC8_witness :
    ∃ q, exprAt (setActivePlacement
      (updateAt (FeatureNode.appendExpr ⟨PlacementType.RealT, [], none⟩)
        [FeatureNode.node "Root" "K" PlacementType.RealT
          [FeatureNode.node "A" "K" PlacementType.RealT [] [] 0 none] [] 0 none]
        ⟨0, []⟩)
      ⟨0, [0]⟩ (some (⟨0, []⟩, 0))) (⟨0, []⟩, 0) = some q ∧
    dependsOnB (setActivePlacement
      (updateAt (FeatureNode.appendExpr ⟨PlacementType.RealT, [], none⟩)
        [FeatureNode.node "Root" "K" PlacementType.RealT
          [FeatureNode.node "A" "K" PlacementType.RealT [] [] 0 none] [] 0 none]
        ⟨0, []⟩)
      ⟨0, [0]⟩ (some (⟨0, []⟩, 0))) q ⟨0, [0]⟩ = false :=
  claimC8 (fun _ _ _ => none)
    [FeatureNode.node "Root" "K" PlacementType.RealT
      [FeatureNode.node "A" "K" PlacementType.RealT [] [] 0 none] [] 0 none]
    ⟨0, [0]⟩ ⟨PlacementType.RealT, [], none⟩ _ _ _ place_concrete_ok

end Simbody

namespace Simbody

theorem fixPlacements_node (w : World) (oR nR : FeatureRef) (nm ft : String)
    (rt : PlacementType) (ss : List FeatureNode) (pe : List PlacementExpr)
    (nv : Nat) (ap : Option PlacementRef) :
    fixPlacements w oR nR (.node nm ft rt ss pe nv ap) =
      .node nm ft rt (ss.map (fixPlacements w oR nR)) (pe.map (fixExpr w oR nR)) nv
        (ap.bind (fun a => findCorrespondingPlacement w oR a nR)) := by
  rw [fixPlacements]
  congr 1
  exact List.attach_map_coe ss (fixPlacements w oR nR)

theorem resolveIn_fix (w : World) (oR nR : FeatureRef) :
    ∀ (q : List Nat) (n : FeatureNode),
      resolveIn (fixPlacements w oR nR n) q =
        (resolveIn n q).map (fixPlacements w oR nR) := by
  intro q
  induction q with
  | nil => intro n; rfl
  | cons i qs ih =>
    intro n
    cases n with
    | node nm ft rt ss pe nv ap =>
      have hr : resolveIn (FeatureNode.node nm ft rt ss pe nv ap) (i :: qs) =
          (ss[i]?).bind (fun c => resolveIn c qs) := rfl
      rw [fixPlacements_node, hr]
      show ((ss.map (fixPlacements w oR nR))[i]?).bind (fun c => resolveIn c qs) = _
      rw [List.getElem?_map]
      cases hc : ss[i]? with
      | none => rfl
      | some c =>
        show resolveIn (fixPlacements w oR nR c) qs = _
        rw [ih c]
        rfl

theorem resolve_append (w : World) (ws : List FeatureNode) (x : FeatureRef)
    (hx : x.tree < w.length) : resolve (w ++ ws) x = resolve w x := by
  rw [resolve, resolve, List.getElem?_append, if_pos hx]

theorem resolve_append_new (w : World) (n : FeatureNode) (q : List Nat) :
    resolve (w ++ [n]) ⟨w.length, q⟩ = resolveIn n q := by
  rw [resolve]
  show (w ++ [n])[w.length]?.bind _ = _
  rw [List.getElem?_concat_length]
  rfl

theorem resolve_under (w : World) (R f : FeatureRef) (n : FeatureNode)
    (hres : resolve w R = some n) (ht : R.tree = f.tree) (hp : R.path <+: f.path) :
    resolve w f = resolveIn n (f.path.drop R.path.length) := by
  rcases hp with ⟨suffix, hs⟩
  rw [resolve] at hres ⊢
  rw [← ht]
  cases hw : w[R.tree]? with
  | none =>
    rw [hw] at hres
    exact absurd hres (by simp)
  | some root0 =>
    rw [hw] at hres
    show resolveIn root0 f.path = _
    have hres2 : resolveIn root0 R.path = some n := hres
    rw [← hs, resolveIn_append, hres2]
    show resolveIn n suffix = resolveIn n ((R.path ++ suffix).drop R.path.length)
    rw [List.drop_left]

theorem descendByIndices_spec (W2 : World) (T : Nat) (nc : FeatureNode)
    (hT : W2[T]? = some nc) :
    ∀ (suffix pre : List Nat), (resolveIn nc pre).isSome = true →
      descendByIndices W2 ⟨T, pre⟩ suffix =
        if (resolveIn nc (pre ++ suffix)).isSome then some ⟨T, pre ++ suffix⟩
        else none := by
  intro suffix
  induction suffix with
  | nil =>
    intro pre hpre
    show some (⟨T, pre⟩ : FeatureRef) = _
    rw [List.append_nil, if_pos hpre]
  | cons i rest ih =>
    intro pre hpre
    have hres : resolve W2 ⟨T, pre ++ [i]⟩ = resolveIn nc (pre ++ [i]) := by
      rw [resolve]
      show W2[T]?.bind _ = _
      rw [hT]
      rfl
    have hsplit : resolveIn nc (pre ++ i :: rest) =
        (resolveIn nc (pre ++ [i])).bind (fun m => resolveIn m rest) := by
      rw [show pre ++ i :: rest = (pre ++ [i]) ++ rest by
        rw [List.append_assoc, List.singleton_append], resolveIn_append]
    show (match resolve W2 ⟨T, pre ++ [i]⟩ with
      | some _ => descendByIndices W2 ⟨T, pre ++ [i]⟩ rest
      | none => none) = _
    cases hstep : resolveIn nc (pre ++ [i]) with
    | none =>
      rw [hres, hstep]
      rw [if_neg (by rw [hsplit, hstep]; simp)]
    | some m =>
      rw [hres, hstep]
      show descendByIndices W2 ⟨T, pre ++ [i]⟩ rest = _
      rw [ih (pre ++ [i]) (by rw [hstep]; rfl)]
      rw [show (pre ++ [i]) ++ rest = pre ++ i :: rest from by
        rw [List.append_assoc, List.singleton_append]]

theorem findCorrespondingFeature_spec (W2 : World) (R : FeatureRef) (T : Nat)
    (nc : FeatureNode) (hT : W2[T]? = some nc) (r : FeatureRef) :
    findCorrespondingFeature W2 R r ⟨T, []⟩ =
      if R.tree = r.tree ∧ R.path <+: r.path ∧
          (resolveIn nc (r.path.drop R.path.length)).isSome
      then some ⟨T, r.path.drop R.path.length⟩ else none := by
  rw [findCorrespondingFeature]
  have hit := isInTreeAux_spec R r []
  by_cases hc : R.tree = r.tree ∧ R.path <+: r.path
  · have h1 : isFeatureInFeatureTree R r =
        (true, [] ++ (r.path.drop R.path.length).reverse) := by
      rw [isFeatureInFeatureTree, hit, if_pos hc]
    rw [h1]
    show descendByIndices W2 ⟨T, []⟩ ([] ++ (r.path.drop R.path.length).reverse).reverse = _
    rw [List.nil_append, List.reverse_reverse]
    rw [descendByIndices_spec W2 T nc hT (r.path.drop R.path.length) [] rfl]
    rw [List.nil_append]
    by_cases hs : (resolveIn nc (r.path.drop R.path.length)).isSome = true
    · rw [if_pos hs, if_pos ⟨hc.1, hc.2, hs⟩]
    · rw [if_neg hs, if_neg (by rintro ⟨_, _, h3⟩; exact hs h3)]
  · have h1 : isFeatureInFeatureTree R r = (false, []) := by
      rw [isFeatureInFeatureTree, hit, if_neg hc]
    rw [h1]
    rw [if_neg (by rintro ⟨h2, h3, _⟩; exact hc ⟨h2, h3⟩)]

end Simbody

namespace Simbody

theorem clone_eq (w : World) (R : FeatureRef) (n : FeatureNode)
    (hres : resolve w R = some n) :
    cloneWithoutParentOrExternalPlacements w R =
      some (w ++ [fixPlacements (w ++ [n]) R ⟨w.length, []⟩ n], ⟨w.length, []⟩) := by
  simp only [cloneWithoutParentOrExternalPlacements, hres]

theorem resolve_tree_lt (w : World) (R : FeatureRef) (n : FeatureNode)
    (hres : resolve w R = some n) :
    ∃ root0, w[R.tree]? = some root0 ∧ resolveIn root0 R.path = some n ∧
      R.tree < w.length := by
  rw [resolve] at hres
  cases hw : w[R.tree]? with
  | none =>
    rw [hw] at hres
    exact absurd hres (by simp)
  | some root0 =>
    rw [hw] at hres
    exact ⟨root0, rfl, hres, (List.getElem?_eq_some_iff.1 hw).1⟩

/-- Claim C5: for a Feature `f` under root `R` and the clone of `R`,
`findCorrespondingFeature` returns the clone node reached by replaying
`f`'s descent trace from the clone's root; replaying the correspondence
in the reverse direction returns `f` itself; and the call returns `none`
when `f` is not under `R`. -/
theorem claimC5 (w : World) (R : FeatureRef) (n : FeatureNode)
    (w2 : World) (c : FeatureRef)
    (hres : resolve w R = some n)
    (hclone : cloneWithoutParentOrExternalPlacements w R = some (w2, c)) :
    (∀ f : FeatureRef, R ∈ ancestorChain f → (resolve w f).isSome = true →
      findCorrespondingFeature w2 R f c =
        some ⟨c.tree, f.path.drop R.path.length⟩ ∧
      findCorrespondingFeature w2 c ⟨c.tree, f.path.drop R.path.length⟩ R =
        some f) ∧
    (∀ f : FeatureRef, R ∉ ancestorChain f →
      findCorrespondingFeature w2 R f c = none) := by
  rw [clone_eq w R n hres] at hclone
  injection hclone with hpair
  have hw2 : w2 = w ++ [fixPlacements (w ++ [n]) R ⟨w.length, []⟩ n] :=
    (congrArg Prod.fst hpair).symm
  have hcc : c = ⟨w.length, []⟩ := (congrArg Prod.snd hpair).symm
  subst hw2
  subst hcc
  have hT2 : (w ++ [fixPlacements (w ++ [n]) R ⟨w.length, []⟩ n])[w.length]? =
      some (fixPlacements (w ++ [n]) R ⟨w.length, []⟩ n) :=
    List.getElem?_concat_length _ _
  rcases resolve_tree_lt w R n hres with ⟨root0, hw0, hr0, hRlt⟩
  constructor
  · intro f hunder hval
    obtain ⟨ht, hp⟩ := (mem_ancestorChain_iff R f).1 hunder
    have hsuf : resolve w f = resolveIn n (f.path.drop R.path.length) :=
      resolve_under w R f n hres ht hp
    have hsome : (resolveIn n (f.path.drop R.path.length)).isSome = true := by
      rw [← hsuf]
      exact hval
    have hsome2 : (resolveIn (fixPlacements (w ++ [n]) R ⟨w.length, []⟩ n)
        (f.path.drop R.path.length)).isSome = true := by
      rw [resolveIn_fix]
      simpa using hsome
    constructor
    · rw [findCorrespondingFeature_spec _ R w.length _ hT2 f]
      rw [if_pos ⟨ht, hp, hsome2⟩]
    · rw [findCorrespondingFeature]
      have hit := isInTreeAux_spec ⟨w.length, []⟩
        ⟨w.length, f.path.drop R.path.length⟩ []
      have h1 : isFeatureInFeatureTree ⟨w.length, []⟩
          ⟨w.length, f.path.drop R.path.length⟩ =
          (true, [] ++ ((f.path.drop R.path.length).drop 0).reverse) := by
        rw [isFeatureInFeatureTree, hit, if_pos ⟨rfl, List.nil_prefix⟩]
        rfl
      rw [h1]
      show descendByIndices _ R
        ([] ++ ((f.path.drop R.path.length).drop 0).reverse).reverse = some f
      rw [List.nil_append, List.drop_zero, List.reverse_reverse]
      have hT0 : (w ++ [fixPlacements (w ++ [n]) R ⟨w.length, []⟩ n])[R.tree]? =
          some root0 := by
        rw [List.getElem?_append, if_pos hRlt]
        exact hw0
      have hpre : (resolveIn root0 R.path).isSome = true := by
        rw [hr0]
        rfl
      show descendByIndices _ ⟨R.tree, R.path⟩ (f.path.drop R.path.length) = some f
      rw [descendByIndices_spec _ R.tree root0 hT0 (f.path.drop R.path.length)
        R.path hpre]
      have hcomp : resolveIn root0 (R.path ++ f.path.drop R.path.length) =
          resolveIn n (f.path.drop R.path.length) := by
        rw [resolveIn_append, hr0]
        rfl
      rw [if_pos (by rw [hcomp]; exact hsome)]
      have hfull : R.path ++ f.path.drop R.path.length = f.path :=
        List.prefix_iff_eq_append.1 hp
      rw [hfull]
      have : (⟨R.tree, f.path⟩ : FeatureRef) = f := by
        cases f
        simp_all
      rw [this]
  · intro f hnot
    rw [findCorrespondingFeature_spec _ R w.length _ hT2 f]
    rw [if_neg ?_]
    rintro ⟨h1, h2, _⟩
    exact hnot ((mem_ancestorChain_iff R f).2 ⟨h1, h2⟩)

end Simbody

namespace Simbody

/-- Witness for C5: in the concrete world `[Root{A}]`, after cloning
`Root`, the node `A` corresponds to the clone's child at the same index. -/
theorem claimC5_witness :
    findCorrespondingFeature
      ([FeatureNode.node "Root" "K" PlacementType.RealT
          [FeatureNode.node "A" "K" PlacementType.RealT [] [] 0 none] [] 0 none] ++
        [fixPlacements
          ([FeatureNode.node "Root" "K" PlacementType.RealT
              [FeatureNode.node "A" "K" PlacementType.RealT [] [] 0 none] [] 0 none] ++
            [FeatureNode.node "Root" "K" PlacementType.RealT
              [FeatureNode.node "A" "K" PlacementType.RealT [] [] 0 none] [] 0 none])
          ⟨0, []⟩ ⟨1, []⟩
          (FeatureNode.node "Root" "K" PlacementType.RealT
            [FeatureNode.node "A" "K" PlacementType.RealT [] [] 0 none] [] 0 none)])
      ⟨0, []⟩ ⟨0, [0]⟩ ⟨1, []⟩ = some ⟨1, [0]⟩ :=
  ((claimC5
    [FeatureNode.node "Root" "K" PlacementType.RealT
      [FeatureNode.node "A" "K" PlacementType.RealT [] [] 0 none] [] 0 none]
    ⟨0, []⟩
    (FeatureNode.node "Root" "K" PlacementType.RealT
      [FeatureNode.node "A" "K" PlacementType.RealT [] [] 0 none] [] 0 none)
    _ ⟨1, []⟩ rfl rfl).1 ⟨0, [0]⟩
    ((mem_ancestorChain_iff _ _).2 ⟨rfl, List.nil_prefix⟩) rfl).1

end Simbody

namespace Simbody

theorem corrNode_nil (R : FeatureRef) (T : Nat) (rr : FeatureRef) :
    corrNode R ⟨T, []⟩ rr = ⟨T, rr.path.drop R.path.length⟩ := by
  rw [corrNode]
  simp

theorem fcPlacement_pos (w : World) (n : FeatureNode) (R o : FeatureRef)
    (i : Nat) (mo : FeatureNode)
    (ht : R.tree = o.tree) (hp : R.path <+: o.path)
    (hmo : resolveIn n (o.path.drop R.path.length) = some mo)
    (hi : i < mo.placementExpressions.length) :
    findCorrespondingPlacement (w ++ [n]) R (o, i) ⟨w.length, []⟩ =
      some (⟨w.length, o.path.drop R.path.length⟩, i) := by
  have hfcf := findCorrespondingFeature_spec (w ++ [n]) R w.length n
    (List.getElem?_concat_length _ _) o
  rw [if_pos ⟨ht, hp, by rw [hmo]; rfl⟩] at hfcf
  have hro : resolve (w ++ [n]) ⟨w.length, o.path.drop R.path.length⟩ = some mo := by
    rw [resolve_append_new]
    exact hmo
  simp only [findCorrespondingPlacement, hfcf, hro, if_pos hi]

theorem fcPlacement_neg (w : World) (n : FeatureNode) (R o : FeatureRef)
    (i : Nat)
    (h : ¬ (R.tree = o.tree ∧ R.path <+: o.path ∧ ∃ mo,
      resolveIn n (o.path.drop R.path.length) = some mo ∧
      i < mo.placementExpressions.length)) :
    findCorrespondingPlacement (w ++ [n]) R (o, i) ⟨w.length, []⟩ = none := by
  have hfcf := findCorrespondingFeature_spec (w ++ [n]) R w.length n
    (List.getElem?_concat_length _ _) o
  by_cases hc : R.tree = o.tree ∧ R.path <+: o.path ∧
      (resolveIn n (o.path.drop R.path.length)).isSome = true
  · rw [if_pos hc] at hfcf
    rcases Option.isSome_iff_exists.1 hc.2.2 with ⟨mo, hmo⟩
    have hro : resolve (w ++ [n]) ⟨w.length, o.path.drop R.path.length⟩ = some mo := by
      rw [resolve_append_new]
      exact hmo
    have hni : ¬ i < mo.placementExpressions.length := by
      intro hi
      exact h ⟨hc.1, hc.2.1, mo, hmo, hi⟩
    simp only [findCorrespondingPlacement, hfcf, hro, if_neg hni]
  · rw [if_neg hc] at hfcf
    simp only [findCorrespondingPlacement, hfcf]

theorem fcValue_pos (w : World) (n : FeatureNode) (R o : FeatureRef)
    (i : Nat) (mo : FeatureNode)
    (ht : R.tree = o.tree) (hp : R.path <+: o.path)
    (hmo : resolveIn n (o.path.drop R.path.length) = some mo)
    (hi : i < mo.numPlacementValues) :
    findCorrespondingPlacementValue (w ++ [n]) R (o, i) ⟨w.length, []⟩ =
      some (⟨w.length, o.path.drop R.path.length⟩, i) := by
  have hfcf := findCorrespondingFeature_spec (w ++ [n]) R w.length n
    (List.getElem?_concat_length _ _) o
  rw [if_pos ⟨ht, hp, by rw [hmo]; rfl⟩] at hfcf
  have hro : resolve (w ++ [n]) ⟨w.length, o.path.drop R.path.length⟩ = some mo := by
    rw [resolve_append_new]
    exact hmo
  simp only [findCorrespondingPlacementValue, hfcf, hro, if_pos hi]

theorem fcValue_neg (w : World) (n : FeatureNode) (R o : FeatureRef)
    (i : Nat)
    (h : ¬ (R.tree = o.tree ∧ R.path <+: o.path ∧ ∃ mo,
      resolveIn n (o.path.drop R.path.length) = some mo ∧
      i < mo.numPlacementValues)) :
    findCorrespondingPlacementValue (w ++ [n]) R (o, i) ⟨w.length, []⟩ = none := by
  have hfcf := findCorrespondingFeature_spec (w ++ [n]) R w.length n
    (List.getElem?_concat_length _ _) o
  by_cases hc : R.tree = o.tree ∧ R.path <+: o.path ∧
      (resolveIn n (o.path.drop R.path.length)).isSome = true
  · rw [if_pos hc] at hfcf
    rcases Option.isSome_iff_exists.1 hc.2.2 with ⟨mo, hmo⟩
    have hro : resolve (w ++ [n]) ⟨w.length, o.path.drop R.path.length⟩ = some mo := by
      rw [resolve_append_new]
      exact hmo
    have hni : ¬ i < mo.numPlacementValues := by
      intro hi
      exact h ⟨hc.1, hc.2.1, mo, hmo, hi⟩
    simp only [findCorrespondingPlacementValue, hfcf, hro, if_neg hni]
  · rw [if_neg hc] at hfcf
    simp only [findCorrespondingPlacementValue, hfcf]

end Simbody

namespace Simbody

/-- Claim C2: the clone produced by
`cloneWithoutParentOrExternalPlacements` is a fresh free-standing root
(no parent, no index), has the same shape as the original subtree, and
carries no reference resolving outside the clone: every placement
Feature-reference, value reference and active-placement reference that
pointed at a node of the original subtree is rewritten to the
structurally-corresponding node of the clone (same relative path, same
index), and every reference whose target lay outside the original
subtree is nulled.  Parent and owner back-references are positional in
this embedding, so they cannot leave the clone. -/
theorem claimC2 (w : World) (R : FeatureRef) (n : FeatureNode)
    (w2 : World) (c : FeatureRef)
    (hres : resolve w R = some n)
    (hclone : cloneWithoutParentOrExternalPlacements w R = some (w2, c)) :
    c = ⟨w.length, []⟩ ∧ parentRef c = none ∧
    (∀ q : List Nat, (resolve w2 ⟨c.tree, q⟩).isSome = (resolveIn n q).isSome) ∧
    (∀ (q : List Nat) (m : FeatureNode), resolveIn n q = some m →
      ∃ m' : FeatureNode, resolve w2 ⟨c.tree, q⟩ = some m' ∧
        m'.name = m.name ∧
        m'.subfeatures.length = m.subfeatures.length ∧
        m'.numPlacementValues = m.numPlacementValues ∧
        m'.placementExpressions.length = m.placementExpressions.length ∧
        (∀ (i : Nat) (e : PlacementExpr), m.placementExpressions[i]? = some e →
          ∃ e' : PlacementExpr, m'.placementExpressions[i]? = some e' ∧
            e'.ptype = e.ptype ∧
            (∀ (j : Nat) (rr : FeatureRef), e.refs[j]? = some (some rr) →
              ((UnderSubtree R rr ∧
                  (resolveIn n (rr.path.drop R.path.length)).isSome = true) →
                e'.refs[j]? = some (some (corrNode R c rr)) ∧
                (resolve w2 (corrNode R c rr)).isSome = true ∧
                (corrNode R c rr).tree = c.tree) ∧
              (¬ (UnderSubtree R rr ∧
                  (resolveIn n (rr.path.drop R.path.length)).isSome = true) →
                e'.refs[j]? = some none)) ∧
            (∀ ov : PlacementRef, e.valueRef = some ov →
              (∀ mo, UnderSubtree R ov.1 →
                resolveIn n (ov.1.path.drop R.path.length) = some mo →
                ov.2 < mo.numPlacementValues →
                e'.valueRef = some (corrNode R c ov.1, ov.2) ∧
                (resolve w2 (corrNode R c ov.1)).isSome = true) ∧
              (¬ (UnderSubtree R ov.1 ∧ ∃ mo,
                  resolveIn n (ov.1.path.drop R.path.length) = some mo ∧
                  ov.2 < mo.numPlacementValues) →
                e'.valueRef = none)) ∧
            (e.valueRef = none → e'.valueRef = none)) ∧
        (∀ oa : PlacementRef, m.activePlacement = some oa →
          (∀ mo, UnderSubtree R oa.1 →
            resolveIn n (oa.1.path.drop R.path.length) = some mo →
            oa.2 < mo.placementExpressions.length →
            m'.activePlacement = some (corrNode R c oa.1, oa.2) ∧
            (resolve w2 (corrNode R c oa.1)).isSome = true) ∧
          (¬ (UnderSubtree R oa.1 ∧ ∃ mo,
              resolveIn n (oa.1.path.drop R.path.length) = some mo ∧
              oa.2 < mo.placementExpressions.length) →
            m'.activePlacement = none)) ∧
        (m.activePlacement = none → m'.activePlacement = none)) := by
  rw [clone_eq w R n hres] at hclone
  injection hclone with hpair
  have hw2 : w2 = w ++ [fixPlacements (w ++ [n]) R ⟨w.length, []⟩ n] :=
    (congrArg Prod.fst hpair).symm
  have hcc : c = ⟨w.length, []⟩ := (congrArg Prod.snd hpair).symm
  subst hw2
  subst hcc
  have hrnew : ∀ q : List Nat,
      resolve (w ++ [fixPlacements (w ++ [n]) R ⟨w.length, []⟩ n])
        ⟨w.length, q⟩ =
      (resolveIn n q).map (fixPlacements (w ++ [n]) R ⟨w.length, []⟩) := by
    intro q
    rw [resolve_append_new, resolveIn_fix]
  refine ⟨rfl, by rw [parentRef]; simp, ?_, ?_⟩
  · intro q
    show (resolve (w ++ [fixPlacements (w ++ [n]) R ⟨w.length, []⟩ n])
      ⟨w.length, q⟩).isSome = _
    rw [hrnew q]
    exact Option.isSome_map
  · intro q m hm
    refine ⟨fixPlacements (w ++ [n]) R ⟨w.length, []⟩ m, ?_, ?_⟩
    · show resolve (w ++ [fixPlacements (w ++ [n]) R ⟨w.length, []⟩ n])
        ⟨w.length, q⟩ = _
      rw [hrnew q, hm]
      rfl
    · have hcorr : ∀ rr : FeatureRef,
          corrNode R (⟨w.length, []⟩ : FeatureRef) rr =
            ⟨w.length, rr.path.drop R.path.length⟩ := fun rr => corrNode_nil R w.length rr
      have hrsome : ∀ su : List Nat, (resolveIn n su).isSome = true →
          (resolve (w ++ [fixPlacements (w ++ [n]) R ⟨w.length, []⟩ n])
            (⟨w.length, su⟩ : FeatureRef)).isSome = true := by
        intro su hsu
        rw [hrnew su]
        simpa using hsu
      cases m with
      | node nm ft rt ss pe nv ap =>
        rw [fixPlacements_node]
        simp only [FeatureNode.name, FeatureNode.subfeatures, FeatureNode.numPlacementValues,
          FeatureNode.placementExpressions, FeatureNode.activePlacement, List.length_map]
        refine ⟨trivial, trivial, trivial, trivial, ?_, ?_, ?_⟩
        · intro i e he
          refine ⟨fixExpr (w ++ [n]) R ⟨w.length, []⟩ e, ?_, rfl, ?_, ?_, ?_⟩
          · rw [List.getElem?_map, he]
            rfl
          · intro j rr hj
            have hrefj : (fixExpr (w ++ [n]) R ⟨w.length, []⟩ e).refs[j]? =
                some ((some rr).bind (fun r2 =>
                  findCorrespondingFeature (w ++ [n]) R r2 ⟨w.length, []⟩)) := by
              show (e.refs.map (fun r => r.bind (fun r2 =>
                findCorrespondingFeature (w ++ [n]) R r2 ⟨w.length, []⟩)))[j]? = _
              rw [List.getElem?_map, hj]
              rfl
            have hfcf := findCorrespondingFeature_spec (w ++ [n]) R w.length n
              (List.getElem?_concat_length _ _) rr
            constructor
            · rintro ⟨hU, hS⟩
              rw [if_pos ⟨hU.1.symm, hU.2, hS⟩] at hfcf
              refine ⟨?_, ?_, by rw [hcorr rr]⟩
              · rw [hrefj]
                show some (findCorrespondingFeature (w ++ [n]) R rr ⟨w.length, []⟩) = _
                rw [hfcf, hcorr rr]
              · rw [hcorr rr]
                exact hrsome _ hS
            · intro hneg
              rw [if_neg (by
                rintro ⟨h1, h2, h3⟩
                exact hneg ⟨⟨h1.symm, h2⟩, h3⟩)] at hfcf
              rw [hrefj]
              show some (findCorrespondingFeature (w ++ [n]) R rr ⟨w.length, []⟩) = _
              rw [hfcf]
          · intro ov hov
            have hvr : (fixExpr (w ++ [n]) R ⟨w.length, []⟩ e).valueRef =
                findCorrespondingPlacementValue (w ++ [n]) R ov ⟨w.length, []⟩ := by
              show e.valueRef.bind _ = _
              rw [hov]
              rfl
            constructor
            · intro mo hU hmo hlt
              have := fcValue_pos w n R ov.1 ov.2 mo hU.1.symm hU.2 hmo hlt
              refine ⟨?_, ?_⟩
              · rw [hvr]
                show findCorrespondingPlacementValue (w ++ [n]) R (ov.1, ov.2)
                  ⟨w.length, []⟩ = _
                rw [this, hcorr ov.1]
              · rw [hcorr ov.1]
                exact hrsome _ (by rw [hmo]; rfl)
            · intro hneg
              rw [hvr]
              show findCorrespondingPlacementValue (w ++ [n]) R (ov.1, ov.2)
                ⟨w.length, []⟩ = none
              exact fcValue_neg w n R ov.1 ov.2 (by
                rintro ⟨h1, h2, mo, h3, h4⟩
                exact hneg ⟨⟨h1.symm, h2⟩, mo, h3, h4⟩)
          · intro hnone
            show e.valueRef.bind _ = none
            rw [hnone]
            rfl
        · intro oa hoa
          have hap : (ap.bind (fun a =>
              findCorrespondingPlacement (w ++ [n]) R a ⟨w.length, []⟩)) =
              findCorrespondingPlacement (w ++ [n]) R oa ⟨w.length, []⟩ := by
            rw [hoa]
            rfl
          constructor
          · intro mo hU hmo hlt
            have := fcPlacement_pos w n R oa.1 oa.2 mo hU.1.symm hU.2 hmo hlt
            refine ⟨?_, ?_⟩
            · rw [hap]
              show findCorrespondingPlacement (w ++ [n]) R (oa.1, oa.2)
                ⟨w.length, []⟩ = _
              rw [this, hcorr oa.1]
            · rw [hcorr oa.1]
              exact hrsome _ (by rw [hmo]; rfl)
          · intro hneg
            rw [hap]
            show findCorrespondingPlacement (w ++ [n]) R (oa.1, oa.2)
              ⟨w.length, []⟩ = none
            exact fcPlacement_neg w n R oa.1 oa.2 (by
              rintro ⟨h1, h2, mo, h3, h4⟩
              exact hneg ⟨⟨h1.symm, h2⟩, mo, h3, h4⟩)
        · intro hnone
          rw [hnone]
          rfl

end Simbody

namespace Simbody

/-- Witness for C2: cloning subtree `A` (which owns one placement
referencing both the outside root `R` and `A` itself) nulls the external
reference and remaps the internal one to the clone. -/
theorem claimC2_witness :
    ∃ (m' : FeatureNode) (e' : PlacementExpr),
      resolve
        ([FeatureNode.node "R" "K" PlacementType.RealT
            [FeatureNode.node "A" "K" PlacementType.RealT []
              [⟨PlacementType.RealT, [some ⟨0, []⟩, some ⟨0, [0]⟩], none⟩] 0 none]
            [] 0 none] ++
          [fixPlacements
            ([FeatureNode.node "R" "K" PlacementType.RealT
                [FeatureNode.node "A" "K" PlacementType.RealT []
                  [⟨PlacementType.RealT, [some ⟨0, []⟩, some ⟨0, [0]⟩], none⟩] 0 none]
                [] 0 none] ++
              [FeatureNode.node "A" "K" PlacementType.RealT []
                [⟨PlacementType.RealT, [some ⟨0, []⟩, some ⟨0, [0]⟩], none⟩] 0 none])
            ⟨0, [0]⟩ ⟨1, []⟩
            (FeatureNode.node "A" "K" PlacementType.RealT []
              [⟨PlacementType.RealT, [some ⟨0, []⟩, some ⟨0, [0]⟩], none⟩] 0 none)])
        ⟨1, []⟩ = some m' ∧
      m'.placementExpressions[0]? = some e' ∧
      e'.refs[0]? = some none ∧
      e'.refs[1]? = some (some (corrNode ⟨0, [0]⟩ ⟨1, []⟩ ⟨0, [0]⟩)) := by
  obtain ⟨m', hm', h1, h2, h3, h4, hexprs, h5, h6⟩ :=
    (claimC2
      [FeatureNode.node "R" "K" PlacementType.RealT
        [FeatureNode.node "A" "K" PlacementType.RealT []
          [⟨PlacementType.RealT, [some ⟨0, []⟩, some ⟨0, [0]⟩], none⟩] 0 none]
        [] 0 none]
      ⟨0, [0]⟩
      (FeatureNode.node "A" "K" PlacementType.RealT []
        [⟨PlacementType.RealT, [some ⟨0, []⟩, some ⟨0, [0]⟩], none⟩] 0 none)
      _ ⟨1, []⟩ rfl rfl).2.2.2 []
      (FeatureNode.node "A" "K" PlacementType.RealT []
        [⟨PlacementType.RealT, [some ⟨0, []⟩, some ⟨0, [0]⟩], none⟩] 0 none) rfl
  obtain ⟨e', he', hpt, hrefs, hv1, hv2⟩ :=
    hexprs 0 ⟨PlacementType.RealT, [some ⟨0, []⟩, some ⟨0, [0]⟩], none⟩ rfl
  refine ⟨m', e', hm', he', ?_, ?_⟩
  · exact (hrefs 0 ⟨0, []⟩ rfl).2 (by
      rintro ⟨⟨_, hpre⟩, _⟩
      simp at hpre)
  · exact ((hrefs 1 ⟨0, [0]⟩ rfl).1 ⟨⟨rfl, List.prefix_refl _⟩, rfl⟩).1

end Simbody
